import Mathlib

/-!
Verification of the workflow step scheduler of the `anthropic_autogen`
package: `workflow/parallel.py` (`ParallelWorkflowExecutor`),
`core/task.py` (`TaskManager`/`TaskContext`) and
`workflow/manager.py` (`WorkflowManager.resume_workflow`).

Modelling conventions, shared by every definition below:
- Python `dict`s are association lists (`Dict α`) whose insertion
  (`dictInsert`) overwrites an existing key in place and otherwise appends,
  matching `d[k] = v`; lookup is `List.lookup` (keys stay unique).
- Python `set`s of step ids are `List String` without duplicates
  (`setAdd` is `s.add(x)`).
- `datetime.now()` timestamps are abstracted to a `Nat` clock value that the
  caller passes in (the claims under study never compare timestamps).
- Exceptions are `Except String`; a raised `KeyError`/`ValueError`
  becomes `.error msg`.
- `asyncio` nondeterminism (which of the in-flight tasks the
  `asyncio.wait(..., return_when=FIRST_COMPLETED)` call reports as done)
  is resolved by an explicit schedule oracle; loops that the Python runtime
  could spin forever on are given explicit fuel, with a dedicated
  out-of-fuel outcome representing divergence.
- The external `StepExecutor` collaborator (`executor.execute_step`) is an
  oracle `String → Except String Nat`: per step id, either a result value or
  a raised error.  Step results are abstracted to `Nat`.
-/

/-- Association-list model of a Python `dict` with `String` keys. -/
abbrev Dict (α : Type) := List (String × α)

/-- `d[k] = v`: overwrite the entry in place if the key exists, else append
(Python dicts keep insertion order and update values in place). -/
def dictInsert {α : Type} (d : Dict α) (k : String) (v : α) : Dict α :=
  if d.any (fun p => p.1 = k) then
    d.map (fun p => if p.1 = k then (k, v) else p)
  else d ++ [(k, v)]

/-- The key list of a dict (`d.keys()`). -/
def dictKeys {α : Type} (d : Dict α) : List String := d.map (fun p => p.1)

/-- `k in d` membership test on a Python dict. -/
def dictMem {α : Type} (d : Dict α) (k : String) : Bool :=
  d.any (fun p => p.1 = k)

/-- `s.add(x)` on a Python set modelled as a duplicate-free list. -/
def setAdd (s : List String) (x : String) : List String :=
  if x ∈ s then s else s ++ [x]

/-! ## Workflow schema (`workflow/schema.py`)

`WorkflowStep` carries many fields (`name`, `type`, `input`, `timeout`,
`retry`, `condition`); the scheduler under verification reads only `id` and
`dependencies`, so the embedding keeps exactly those two. -/

/-- `WorkflowStep` restricted to the fields the scheduler reads. -/
structure WorkflowStep where
  id : String
  dependencies : List String
deriving Repr, DecidableEq

/-- `StepDependencyGraph` from `workflow/parallel.py`: the step table plus
forward (`dependencies`) and reverse (`dependents`) adjacency maps. -/
structure StepDependencyGraph where
  steps : Dict WorkflowStep
  dependencies : Dict (List String)
  dependents : Dict (List String)
deriving Repr, DecidableEq

/-- `ParallelWorkflowExecutor.build_dependency_graph`.

Mirrors the source: the three dict comprehensions, then the reverse-edge
loop `for step_id, deps in graph.dependencies.items(): for dep_id in deps:
graph.dependents[dep_id].add(step_id)`.  The subscript
`graph.dependents[dep_id]` raises `KeyError` when `dep_id` is not a step id
of the list, which is the `.error` branch below; there is no other
validation. -/
def build_dependency_graph (steps : List WorkflowStep) :
    Except String StepDependencyGraph :=
  let stepsD : Dict WorkflowStep :=
    steps.foldl (fun d s => dictInsert d s.id s) []
  let depsD : Dict (List String) :=
    steps.foldl (fun d s => dictInsert d s.id s.dependencies.dedup) []
  let dependents0 : Dict (List String) :=
    steps.foldl (fun d s => dictInsert d s.id []) []
  match depsD.foldlM (fun dd p =>
      p.2.foldlM (fun (dd' : Dict (List String)) dep_id =>
        match dd'.lookup dep_id with
        | none => Except.error ("KeyError: " ++ dep_id)
        | some l => Except.ok (dictInsert dd' dep_id (setAdd l p.1))) dd)
      dependents0 with
  | .error e => .error e
  | .ok deps => .ok ⟨stepsD, depsD, deps⟩

/-- The dependency list the graph records for `id` (`graph.dependencies[id]`,
defaulting to `[]` where the Python subscript could only raise). -/
def depsOf (g : StepDependencyGraph) (id : String) : List String :=
  (g.dependencies.lookup id).getD []

/-! ## `ParallelWorkflowExecutor.execute_parallel`

The scheduler loop.  The mutable locals of the Python method
(`results`, `ready_steps`, `self._running_tasks`) together with the two
`WorkflowState` maps it mutates (`completed_steps`, `failed_steps`) form
`ExecState`.  `dispatchLog` is a ghost field recording, for every
`asyncio.create_task` call, the step id and the key set of `results` at
that instant; it exists only so that theorems can talk about when a step
was dispatched and changes no other behaviour. -/

/-- Scheduler state: `results`, `ready_steps`, `self._running_tasks` (keys
only; the task objects are abstracted), `state.completed_steps` (result
kept, `completed_at` timestamp dropped), `state.failed_steps` (error
string kept, `failed_at` dropped), plus the ghost dispatch log. -/
structure ExecState where
  results : Dict Nat
  readySteps : List String
  runningTasks : List String
  completedSteps : Dict Nat
  failedSteps : Dict String
  dispatchLog : List (String × List String)
deriving Repr, DecidableEq

/-- `ParallelWorkflowExecutor.cancel_all`: cancels every still-pending
`asyncio.Task` and clears `self._running_tasks`. -/
def cancel_all (running : List String) : List String :=
  let _ := running
  []

/-- The dispatch block at the top of the `while` loop: for every ready step,
`graph.steps[step_id]` is subscripted (KeyError when absent) and an
execution task is created and recorded in `self._running_tasks`; afterwards
`ready_steps.clear()`. -/
def dispatchReady (g : StepDependencyGraph) (st : ExecState) :
    Except (String × ExecState) ExecState :=
  match st.readySteps.foldlM (fun (st' : ExecState) step_id =>
      match g.steps.lookup step_id with
      | none => Except.error ("KeyError: " ++ step_id, st')
      | some _step =>
        Except.ok { st' with
          runningTasks := setAdd st'.runningTasks step_id,
          dispatchLog := st'.dispatchLog ++ [(step_id, dictKeys st'.results)] })
      st with
  | .error e => .error e
  | .ok st' => .ok { st' with readySteps := [] }

/-- Processing one completed execution out of the `done` set: delete the
entry from `self._running_tasks`, then `await task`.  On success, record
the result into `results` and `state.completed_steps` and add every
dependent whose full dependency set is now in `results` to `ready_steps`.
On a raised error, record `state.failed_steps[step_id]`, `cancel_all`, and
re-raise (the `.error` carries the state the caller observes). -/
def processOne (g : StepDependencyGraph) (exec : String → Except String Nat)
    (st₀ : ExecState) (step_id : String) :
    Except (String × ExecState) ExecState :=
  let st := { st₀ with runningTasks := st₀.runningTasks.filter (fun x => x ≠ step_id) }
  match exec step_id with
  | .ok result =>
    let st1 := { st with
      results := dictInsert st.results step_id result,
      completedSteps := dictInsert st.completedSteps step_id result }
    match g.dependents.lookup step_id with
    | none => .error ("KeyError: " ++ step_id, st1)
    | some deps =>
      deps.foldlM (fun (st2 : ExecState) dependent_id =>
        match g.dependencies.lookup dependent_id with
        | none => Except.error ("KeyError: " ++ dependent_id, st2)
        | some depIds =>
          if depIds.all (fun dep_id => dictMem st2.results dep_id) then
            Except.ok { st2 with readySteps := setAdd st2.readySteps dependent_id }
          else Except.ok st2) st1
  | .error e =>
    let st1 := { st with
      failedSteps := dictInsert st.failedSteps step_id e,
      runningTasks := cancel_all st.runningTasks }
    .error (e, st1)

/-- `for task in done: ...` — the completed executions are processed in
order; a raised error aborts the remaining iterations (the exception
propagates out of the `for`). -/
def processDone (g : StepDependencyGraph) (exec : String → Except String Nat)
    (done : List String) (st : ExecState) :
    Except (String × ExecState) ExecState :=
  done.foldlM (fun st' step_id => processOne g exec st' step_id) st

/-- Resolution of `asyncio.wait(..., return_when=FIRST_COMPLETED)`: the
schedule proposes a list of step ids; those actually in flight (dedupped)
are the `done` set, and if the proposal names none of them the first
in-flight task completes.  Every nonempty subset of the running set, in
every order, is reachable by some schedule. -/
def chooseDone (picked running : List String) : List String :=
  let d := (picked.filter (fun x => running.contains x)).dedup
  if d.isEmpty then running.take 1 else d

/-- Outcome of the scheduler loop: normal return of the `results` map, a
propagated exception, or out of fuel (the Python loop still spinning after
`fuel` iterations).  Each constructor carries the scheduler state at that
point. -/
inductive ExecOutcome where
  | ok (results : Dict Nat) (st : ExecState)
  | err (e : String) (st : ExecState)
  | fuelOut (st : ExecState)
deriving Repr, DecidableEq

/-- The scheduler state carried by an outcome. -/
def ExecOutcome.state : ExecOutcome → ExecState
  | .ok _ st => st
  | .err _ st => st
  | .fuelOut st => st

/-- The `while ready_steps or self._running_tasks:` loop, one fuel unit per
iteration.  `t` counts the `asyncio.wait` suspension points for the
schedule oracle. -/
def execLoop (g : StepDependencyGraph) (exec : String → Except String Nat)
    (schedule : Nat → List String) : Nat → Nat → ExecState → ExecOutcome
  | 0, _, st => .fuelOut st
  | fuel + 1, t, st =>
    if st.readySteps = [] ∧ st.runningTasks = [] then .ok st.results st
    else
      match dispatchReady g st with
      | .error (e, st') => .err e st'
      | .ok st1 =>
        if st1.runningTasks = [] then execLoop g exec schedule fuel (t + 1) st1
        else
          let done := chooseDone (schedule t) st1.runningTasks
          match processDone g exec done st1 with
          | .error (e, st2) => .err e st2
          | .ok st2 => execLoop g exec schedule fuel (t + 1) st2

/-- The scheduler state `execute_parallel` starts from: empty `results`,
the initial ready set `{step_id for step_id, deps in
graph.dependencies.items() if not deps}`, no running tasks, and the fresh
`WorkflowState` maps. -/
def initExecState (g : StepDependencyGraph) : ExecState :=
  ⟨[], (g.dependencies.filter (fun p => p.2.isEmpty)).map (fun p => p.1), [], [], [], []⟩

/-- `ParallelWorkflowExecutor.execute_parallel`, parameterised by the step
executor oracle and the completion-order schedule. -/
def execute_parallel (steps : List WorkflowStep)
    (exec : String → Except String Nat) (schedule : Nat → List String)
    (fuel : Nat) : ExecOutcome :=
  match build_dependency_graph steps with
  | .error e => .err e ⟨[], [], [], [], [], []⟩
  | .ok g => execLoop g exec schedule fuel 0 (initExecState g)

/-! ## `core/task.py`: `TaskState`, `TaskContext`, `TaskManager`

`_notify_state_change` invokes registered callbacks and swallows their
errors; callbacks receive the task and cannot reach back into the manager
through this interface, so notification is a no-op in the embedding.
`uuid4()` id generation is abstracted: `create_task` takes the fresh id as
an argument.  `asyncio.sleep(retry_delay)` is a pure delay and is a no-op
here. -/

/-- `TaskState` enum. -/
inductive TaskState where
  | pending
  | running
  | completed
  | failed
  | cancelled
  | timeout
deriving Repr, DecidableEq

/-- `TaskContext`.  `owner` is the agent id as a string; the
`CancellationToken` is abstracted to the one bit the scheduler reads,
whether `.cancel()` was called; `results` values are strings. -/
structure TaskContext where
  owner : String
  task_id : String
  state : TaskState
  created_at : Nat
  started_at : Option Nat
  completed_at : Option Nat
  timeout : Option Nat
  dependencies : List String
  results : Dict String
  token_cancelled : Bool
  retries : Nat
  max_retries : Nat
  retry_delay : Nat
  last_error : Option String
deriving Repr, DecidableEq

/-- `TaskManager`: the `_tasks` dict.  (`_state_callbacks` is dropped with
`_notify_state_change`, see the section comment.) -/
structure TaskManager where
  tasks : Dict TaskContext
deriving Repr, DecidableEq

/-- `TaskManager.get_task`. -/
def TaskManager.get_task (m : TaskManager) (task_id : String) : Option TaskContext :=
  m.tasks.lookup task_id

/-- `TaskManager.create_task`: builds a `TaskContext` with the dataclass
defaults (`state=PENDING`, `retries=0`, `max_retries=3`, `retry_delay=1`,
empty results, fresh un-cancelled token) and registers it under its id. -/
def TaskManager.create_task (m : TaskManager) (owner : String) (task_id : String)
    (timeout : Option Nat) (dependencies : Option (List String)) (now : Nat) :
    TaskManager × TaskContext :=
  let task : TaskContext :=
    ⟨owner, task_id, .pending, now, none, none, timeout, dependencies.getD [],
      [], false, 0, 3, 1, none⟩
  (⟨dictInsert m.tasks task.task_id task⟩, task)

/-- `TaskManager.start_task`: `ValueError` when the task is unknown, not
`PENDING`, or some dependency's task is missing or not `COMPLETED`;
otherwise the task becomes `RUNNING` with `started_at = now`. -/
def TaskManager.start_task (m : TaskManager) (task_id : String) (now : Nat) :
    Except String TaskManager :=
  match m.tasks.lookup task_id with
  | none => .error ("Task " ++ task_id ++ " not found")
  | some task =>
    if task.state ≠ TaskState.pending then
      .error ("Task " ++ task_id ++ " is not in PENDING state")
    else if task.dependencies.all (fun dep_id =>
        match m.tasks.lookup dep_id with
        | none => false
        | some dep => dep.state = TaskState.completed) then
      .ok ⟨dictInsert m.tasks task_id
        { task with state := .running, started_at := some now }⟩
    else .error "Dependency not satisfied"

/-- `TaskManager.complete_task`: unknown id is a `ValueError`; otherwise the
task is marked `COMPLETED` with `completed_at = now` and the supplied
results merged in — no check of the task's current state. -/
def TaskManager.complete_task (m : TaskManager) (task_id : String)
    (results : Dict String) (now : Nat) : Except String TaskManager :=
  match m.tasks.lookup task_id with
  | none => .error ("Task " ++ task_id ++ " not found")
  | some task =>
    .ok ⟨dictInsert m.tasks task_id
      { task with
        state := .completed
        completed_at := some now
        results := results.foldl (fun r p => dictInsert r p.1 p.2) task.results }⟩

/-- `TaskManager.fail_task`: marks `FAILED` with `completed_at = now`,
storing the error under `results["error"]` when given — again with no check
of the current state. -/
def TaskManager.fail_task (m : TaskManager) (task_id : String)
    (err : Option String) (now : Nat) : Except String TaskManager :=
  match m.tasks.lookup task_id with
  | none => .error ("Task " ++ task_id ++ " not found")
  | some task =>
    .ok ⟨dictInsert m.tasks task_id
      { task with
        state := .failed
        completed_at := some now
        results := match err with
          | some e => dictInsert task.results "error" e
          | none => task.results }⟩

/-- `TaskManager.get_dependent_tasks`: the flat scan
`[task.task_id for task in self._tasks.values() if task_id in task.dependencies]`. -/
def TaskManager.get_dependent_tasks (m : TaskManager) (task_id : String) :
    List String :=
  (m.tasks.filter (fun p => task_id ∈ p.2.dependencies)).map (fun p => p.2.task_id)

/-- The body of `cancel_task` before the cascade: mark `CANCELLED`, set
`completed_at`, call `cancellation_token.cancel()`. `none` when the id is
unknown (the `ValueError` branch). -/
def TaskManager.mark_cancelled (m : TaskManager) (task_id : String) (now : Nat) :
    Option TaskManager :=
  match m.tasks.lookup task_id with
  | none => none
  | some task =>
    some ⟨dictInsert m.tasks task_id
      { task with
        state := .cancelled
        completed_at := some now
        token_cancelled := true }⟩

/-- The `for dep_id in dependent_tasks: await self.cancel_task(dep_id)` loop
of `cancel_dependent_tasks`, taking the (fuel-limited) recursive
`cancel_task` as an argument.  A `none` (out of fuel) or `.error` from a
recursive call aborts the loop, as the exception would in Python. -/
def cancelGo (cancel : TaskManager → String → Option (Except String TaskManager)) :
    List String → TaskManager → Option (Except String TaskManager)
  | [], m => some (.ok m)
  | d :: ds, m =>
    match cancel m d with
    | none => none
    | some (.error e) => some (.error e)
    | some (.ok m') => cancelGo cancel ds m'

/-- `TaskManager.cancel_task` together with `cancel_dependent_tasks`.

The Python recursion `cancel_task → cancel_dependent_tasks → cancel_task`
has no termination guard (no visited set), so each nested `cancel_task`
call consumes one unit of fuel; `none` means the recursion is still running
after `fuel` levels, i.e. the source diverges. -/
def TaskManager.cancel_task (fuel : Nat) (m : TaskManager) (task_id : String)
    (now : Nat) : Option (Except String TaskManager) :=
  match fuel with
  | 0 => none
  | fuel' + 1 =>
    match m.mark_cancelled task_id now with
    | none => some (.error ("Task " ++ task_id ++ " not found"))
    | some m1 =>
      cancelGo (fun mm d => TaskManager.cancel_task fuel' mm d now)
        (m1.get_dependent_tasks task_id) m1

/-- `TaskManager.retry_task`: `ValueError` when the task is unknown or
`retries >= max_retries`; otherwise `retries + 1`, back to `PENDING` with
cleared timestamps, sleep `retry_delay` (a no-op here), then `start_task`. -/
def TaskManager.retry_task (m : TaskManager) (task_id : String) (now : Nat) :
    Except String TaskManager :=
  match m.get_task task_id with
  | none => .error ("Task " ++ task_id ++ " not found")
  | some task =>
    if task.max_retries ≤ task.retries then
      .error ("Task " ++ task_id ++ " exceeded retry limit")
    else
      TaskManager.start_task
        ⟨dictInsert m.tasks task_id
          { task with
            retries := task.retries + 1
            state := .pending
            started_at := none
            completed_at := none }⟩
        task_id now

/-! ## Concurrency bound (`_execute_step_with_semaphore`)

`ParallelWorkflowExecutor.__init__` creates
`self._semaphore = asyncio.Semaphore(max_parallel)` with
`max_parallel: int = 10`, and every step execution runs as

    async with self._semaphore:
        return await self.executor.execute_step(...)

The semaphore protocol is embedded as a labelled transition system over the
set of step executions: a created task first *waits* on the semaphore
(`async with` entry suspends while the internal counter is zero), then
*acquires* a slot (counter decremented, the execution is now inside
`execute_step`), and on return *releases* its slot (counter incremented).
Every interleaving the asyncio event loop can produce is a path of this
system. -/

/-- `max_parallel: int = 10` — the default of the `__init__` keyword
argument. -/
def default_max_parallel : Nat := 10

/-- Semaphore-visible state: the internal counter of
`asyncio.Semaphore`, the executions currently inside
`executor.execute_step`, and the created-but-not-yet-admitted executions
still waiting in `async with self._semaphore`. -/
structure SemState where
  value : Nat
  executing : List String
  waiting : List String
deriving Repr, DecidableEq

/-- State at `__init__`: counter `max_parallel`, nothing running. -/
def initSemState (max_parallel : Nat) : SemState :=
  ⟨max_parallel, [], []⟩

/-- One asyncio scheduling event around `_execute_step_with_semaphore`. -/
inductive SemStep : SemState → SemState → Prop
  | submit (s : SemState) (id : String) :
      SemStep s { s with waiting := s.waiting ++ [id] }
  | acquire (s : SemState) (id : String) (rest : List String)
      (hw : s.waiting = id :: rest) (hv : 0 < s.value) :
      SemStep s { s with
        value := s.value - 1
        waiting := rest
        executing := s.executing ++ [id] }
  | release (s : SemState) (id : String) (hm : id ∈ s.executing) :
      SemStep s { s with
        value := s.value + 1
        executing := s.executing.erase id }

/-- Reachability along semaphore events. -/
def SemReachable (max_parallel : Nat) (s : SemState) : Prop :=
  Relation.ReflTransGen SemStep (initSemState max_parallel) s

/-! ## `WorkflowManager.resume_workflow` (`workflow/manager.py`)

The state store (`workflow/persistence.py`, one JSON file per workflow id)
is embedded as a map from workflow id to `WorkflowState`; `load_state`
is lookup.  Only the fields `resume_workflow` reads are kept.
`execute_workflow` — invoked only on the (dead, see below) success path —
is passed in as an oracle over the reconstructed definition. -/

/-- `WorkflowDefinition` restricted to the fields `resume_workflow`
copies: the step list plus the identification fields it forwards. -/
structure WorkflowDefinition where
  id : String
  name : String
  description : String
  version : String
  steps : List WorkflowStep
deriving Repr, DecidableEq

/-- `WorkflowState` restricted to the fields `resume_workflow` reads:
`status`, `completed_steps` and the stored `context`. -/
structure WorkflowState where
  workflow_id : String
  status : String
  completed_steps : Dict Nat
  context : Dict String
deriving Repr, DecidableEq

/-- `WorkflowManager._get_workflow_definition` — quoting the source, a
"placeholder for actual logic": it returns `None` for every workflow id. -/
def get_workflow_definition (workflow_id : String) : Option WorkflowDefinition :=
  let _ := workflow_id
  none

/-- `WorkflowManager.resume_workflow`.  `store` is the persisted state
keyed by workflow id (`WorkflowStateStore.load_state` is its lookup);
`execW` stands for the `self.execute_workflow(...)` call receiving the
rebuilt definition and the stored context.  Returns `.ok none` for a
missing or completed state, an `.error` for the `ValueError` raise, and
`.ok (some r)` when execution is reached. -/
def resume_workflow (execW : WorkflowDefinition → Dict String → Except String (Dict Nat))
    (store : Dict WorkflowState) (workflow_id : String) :
    Except String (Option (Dict Nat)) :=
  match store.lookup workflow_id with
  | none => .ok none
  | some state =>
    if state.status = "completed" then .ok none
    else
      match get_workflow_definition workflow_id with
      | none => .error ("Workflow " ++ workflow_id ++ " not found")
      | some workflow =>
        let remaining_steps :=
          workflow.steps.filter (fun step => ¬ dictMem state.completed_steps step.id)
        match execW ⟨workflow_id, workflow.name, workflow.description,
            workflow.version, remaining_steps⟩ state.context with
        | .ok r => .ok (some r)
        | .error e => .error e

/-! ## Dictionary lemmas -/

theorem mem_dictKeys {α : Type} {d : Dict α} {k : String} :
    k ∈ dictKeys d ↔ dictMem d k = true := by
  simp only [dictKeys, dictMem, List.mem_map, List.any_eq_true, decide_eq_true_eq]

theorem dictKeys_insert {α : Type} (d : Dict α) (k : String) (v : α) :
    dictKeys (dictInsert d k v) =
      if dictMem d k then dictKeys d else dictKeys d ++ [k] := by
  unfold dictInsert dictKeys dictMem
  by_cases hp : (d.any fun p => decide (p.1 = k)) = true
  · rw [if_pos hp, if_pos hp, List.map_map]
    refine List.map_congr_left ?_
    intro p _
    by_cases hk : p.1 = k
    · simp [hk]
    · simp [hk]
  · rw [if_neg hp, if_neg hp, List.map_append]
    rfl

theorem dictMem_insert_iff {α : Type} {d : Dict α} {k k' : String} {v : α} :
    dictMem (dictInsert d k' v) k = true ↔ dictMem d k = true ∨ k = k' := by
  rw [← mem_dictKeys, dictKeys_insert]
  by_cases hm : dictMem d k' = true
  · rw [if_pos hm, mem_dictKeys]
    constructor
    · exact Or.inl
    · rintro (h | rfl)
      · exact h
      · exact hm
  · rw [if_neg hm, List.mem_append, List.mem_singleton, mem_dictKeys]

theorem dictMem_insert_of_mem {α : Type} {d : Dict α} {k : String} (k' : String)
    (v : α) (h : dictMem d k = true) : dictMem (dictInsert d k' v) k = true :=
  dictMem_insert_iff.mpr (Or.inl h)

theorem dictMem_insert_self {α : Type} (d : Dict α) (k : String) (v : α) :
    dictMem (dictInsert d k v) k = true :=
  dictMem_insert_iff.mpr (Or.inr rfl)

theorem lookup_isSome_eq_dictMem {α : Type} {d : Dict α} {k : String} :
    (d.lookup k).isSome = dictMem d k := by
  induction d with
  | nil => rfl
  | cons p l ih =>
    obtain ⟨pk, pv⟩ := p
    cases hbeq : (k == pk) with
    | true =>
      have hk : pk = k := (beq_iff_eq.mp hbeq).symm
      simp [List.lookup, hbeq, dictMem, hk]
    | false =>
      have hk : ¬ pk = k := by
        intro h
        rw [h] at hbeq
        simp at hbeq
      simp only [List.lookup, hbeq, dictMem, List.any_cons, decide_eq_true_eq]
      rw [ih]
      simp [dictMem, hk]

theorem lookup_exists_of_dictMem {α : Type} {d : Dict α} {k : String}
    (h : dictMem d k = true) : ∃ v, d.lookup k = some v := by
  rw [← Option.isSome_iff_exists, lookup_isSome_eq_dictMem]
  exact h

theorem lookup_eq_none_of_not_dictMem {α : Type} {d : Dict α} {k : String}
    (h : dictMem d k = false) : d.lookup k = none := by
  cases hl : d.lookup k with
  | none => rfl
  | some v =>
    have hs : (d.lookup k).isSome = true := by rw [hl]; rfl
    rw [lookup_isSome_eq_dictMem, h] at hs
    cases hs

theorem mem_of_mem_dictInsert {α : Type} {d : Dict α} {k : String} {v : α}
    {p : String × α} (hp : p ∈ dictInsert d k v) : p ∈ d ∨ p = (k, v) := by
  unfold dictInsert at hp
  by_cases hc : (d.any fun q => decide (q.1 = k)) = true
  · rw [if_pos hc] at hp
    obtain ⟨q, hq, hqe⟩ := List.mem_map.mp hp
    by_cases hk : q.1 = k
    · rw [if_pos hk] at hqe
      exact Or.inr hqe.symm
    · rw [if_neg hk] at hqe
      exact Or.inl (hqe ▸ hq)
  · rw [if_neg hc] at hp
    rcases List.mem_append.mp hp with h | h
    · exact Or.inl h
    · exact Or.inr (List.mem_singleton.mp h)

theorem dictMem_foldl_insert {α β : Type} (f : β → String) (v : β → α)
    (l : List β) (D : Dict α) (k : String) :
    dictMem (l.foldl (fun d s => dictInsert d (f s) (v s)) D) k = true ↔
      dictMem D k = true ∨ ∃ s ∈ l, f s = k := by
  induction l generalizing D with
  | nil => simp
  | cons s l ih =>
    simp only [List.foldl_cons, ih, dictMem_insert_iff, List.mem_cons]
    constructor
    · rintro ((h | h) | ⟨s', hs', rfl⟩)
      · exact Or.inl h
      · exact Or.inr ⟨s, Or.inl rfl, h.symm⟩
      · exact Or.inr ⟨s', Or.inr hs', rfl⟩
    · rintro (h | ⟨s', hs' | hs', rfl⟩)
      · exact Or.inl (Or.inl h)
      · exact Or.inl (Or.inr (by rw [hs']))
      · exact Or.inr ⟨s', hs', rfl⟩

theorem mem_foldl_insert {α β : Type} (f : β → String) (v : β → α)
    (l : List β) (D : Dict α) (p : String × α)
    (hp : p ∈ l.foldl (fun d s => dictInsert d (f s) (v s)) D) :
    p ∈ D ∨ ∃ s ∈ l, p = (f s, v s) := by
  induction l generalizing D with
  | nil => exact Or.inl hp
  | cons s l ih =>
    rcases ih _ hp with h | ⟨s', hs', rfl⟩
    · rcases mem_of_mem_dictInsert h with h' | h'
      · exact Or.inl h'
      · exact Or.inr ⟨s, List.mem_cons_self _ _, h'⟩
    · exact Or.inr ⟨s', List.mem_cons_of_mem _ hs', rfl⟩

/-! ## C9: behaviour of `build_dependency_graph` on unknown dependency ids -/

/-- The inner reverse-edge loop of `build_dependency_graph` succeeds when
every dependency id it touches is a key, and it never removes keys. -/
theorem reverse_fold_inner_ok (sid : String) (l : List String)
    (dd : Dict (List String)) (h : ∀ x ∈ l, dictMem dd x = true) :
    ∃ dd', (l.foldlM (fun (dd' : Dict (List String)) dep_id =>
        match dd'.lookup dep_id with
        | none => Except.error ("KeyError: " ++ dep_id)
        | some l' => Except.ok (dictInsert dd' dep_id (setAdd l' sid))) dd)
        = Except.ok dd'
      ∧ ∀ k, dictMem dd k = true → dictMem dd' k = true := by
  induction l generalizing dd with
  | nil => exact ⟨dd, rfl, fun _ hk => hk⟩
  | cons x xs ih =>
    obtain ⟨v, hv⟩ := lookup_exists_of_dictMem (h x (List.mem_cons_self _ _))
    obtain ⟨dd', hdd', hmono⟩ := ih (dictInsert dd x (setAdd v sid))
      (fun y hy => dictMem_insert_of_mem _ _ (h y (List.mem_cons_of_mem _ hy)))
    refine ⟨dd', ?_, fun k hk => hmono k (dictMem_insert_of_mem _ _ hk)⟩
    rw [List.foldlM_cons, hv]
    exact hdd'

/-- The outer reverse-edge loop succeeds when every dependency id of every
entry is a key of the accumulated dependents map. -/
theorem reverse_fold_outer_ok (entries : List (String × List String))
    (dd : Dict (List String))
    (h : ∀ p ∈ entries, ∀ x ∈ p.2, dictMem dd x = true) :
    ∃ dd', (entries.foldlM (fun dd p =>
        p.2.foldlM (fun (dd' : Dict (List String)) dep_id =>
          match dd'.lookup dep_id with
          | none => Except.error ("KeyError: " ++ dep_id)
          | some l => Except.ok (dictInsert dd' dep_id (setAdd l p.1))) dd)
        dd) = Except.ok dd' := by
  induction entries generalizing dd with
  | nil => exact ⟨dd, rfl⟩
  | cons p ps ih =>
    obtain ⟨dd1, hdd1, hmono⟩ :=
      reverse_fold_inner_ok p.1 p.2 dd (h p (List.mem_cons_self _ _))
    obtain ⟨dd', hdd'⟩ := ih dd1
      (fun q hq x hx => hmono x (h q (List.mem_cons_of_mem _ hq) x hx))
    refine ⟨dd', ?_⟩
    rw [List.foldlM_cons, hdd1]
    exact hdd'

/-- **C9 (counterexample).** The claim states that for a step list with an
unknown dependency id, `build_dependency_graph` "completes successfully
without raising any error".  It does not: for the single step `"a"` with
dependency `"missing"`, the reverse-edge loop subscripts
`graph.dependents["missing"]`, which raises `KeyError` — the call does not
return a graph. -/
theorem c9_counterexample :
    build_dependency_graph [⟨"a", ["missing"]⟩]
      = Except.error "KeyError: missing" := by
  rfl

/-- **C9 (amended).** `build_dependency_graph` performs no explicit
validation, but it does not complete successfully on unknown dependency
ids either: subscription into `dependents` raises `KeyError` for the
unknown id.  For every step list whose dependency ids all name listed
steps, the call succeeds and returns the graph whose step table and
forward map `dependencies : stepID -> set(stepID)` are the dict
comprehensions over the step list (the reverse map being the accumulated
`dependents`). -/
theorem c9_unknown_dependency_amended (steps : List WorkflowStep)
    (h : ∀ s ∈ steps, ∀ d ∈ s.dependencies, ∃ s' ∈ steps, s'.id = d) :
    ∃ g, build_dependency_graph steps = Except.ok g ∧
      g.steps = steps.foldl (fun d s => dictInsert d s.id s) [] ∧
      g.dependencies
        = steps.foldl (fun d s => dictInsert d s.id s.dependencies.dedup) [] := by
  have hyp : ∀ p ∈ steps.foldl
      (fun d s => dictInsert d s.id s.dependencies.dedup) [], ∀ x ∈ p.2,
      dictMem (steps.foldl (fun d s => dictInsert d s.id ([] : List String)) [])
        x = true := by
    intro p hp x hx
    rcases mem_foldl_insert (fun s => s.id) (fun s => s.dependencies.dedup)
        steps [] p hp with h0 | ⟨s, hs, rfl⟩
    · cases h0
    · have hxdep : x ∈ s.dependencies := List.mem_dedup.mp hx
      obtain ⟨s', hs', hid⟩ := h s hs x hxdep
      exact (dictMem_foldl_insert (fun s => s.id) (fun _ => ([] : List String))
        steps [] x).mpr (Or.inr ⟨s', hs', hid⟩)
  obtain ⟨dd', hdd'⟩ := reverse_fold_outer_ok
    (steps.foldl (fun d s => dictInsert d s.id s.dependencies.dedup) [])
    (steps.foldl (fun d s => dictInsert d s.id []) []) hyp
  refine ⟨⟨steps.foldl (fun d s => dictInsert d s.id s) [],
    steps.foldl (fun d s => dictInsert d s.id s.dependencies.dedup) [], dd'⟩,
    ?_, rfl, rfl⟩
  unfold build_dependency_graph
  dsimp only
  rw [hdd']

/-- A two-step list whose dependency ids are all known. -/
def knownDepSteps : List WorkflowStep := [⟨"a", []⟩, ⟨"b", ["a"]⟩]

/-- Witness for C9 (amended): a two-step list with a known dependency. -/
theorem c9_witness :
    ∃ g, build_dependency_graph knownDepSteps = Except.ok g ∧
      g.steps = knownDepSteps.foldl (fun d s => dictInsert d s.id s) [] ∧
      g.dependencies = knownDepSteps.foldl
        (fun d s => dictInsert d s.id s.dependencies.dedup) [] :=
  c9_unknown_dependency_amended knownDepSteps (by
    intro s hs d hd
    fin_cases hs <;> simp_all [knownDepSteps])

/-! ## Further dictionary and set lemmas -/

theorem mem_setAdd {s : List String} {x y : String} :
    x ∈ setAdd s y ↔ x ∈ s ∨ x = y := by
  unfold setAdd
  by_cases hy : y ∈ s
  · rw [if_pos hy]
    constructor
    · exact Or.inl
    · rintro (h | rfl)
      · exact h
      · exact hy
  · rw [if_neg hy, List.mem_append, List.mem_singleton]

theorem mem_of_lookup_eq_some {α : Type} {d : Dict α} {k : String} {v : α}
    (h : d.lookup k = some v) : (k, v) ∈ d := by
  induction d with
  | nil => cases h
  | cons p l ih =>
    obtain ⟨pk, pv⟩ := p
    cases hbeq : (k == pk) with
    | true =>
      have hk : k = pk := beq_iff_eq.mp hbeq
      subst hk
      simp only [List.lookup, hbeq] at h
      cases h
      exact List.mem_cons_self _ _
    | false =>
      simp only [List.lookup, hbeq] at h
      exact List.mem_cons_of_mem _ (ih h)

theorem nodup_dictKeys_insert {α : Type} {d : Dict α} (k : String) (v : α)
    (h : (dictKeys d).Nodup) : (dictKeys (dictInsert d k v)).Nodup := by
  rw [dictKeys_insert]
  by_cases hm : dictMem d k = true
  · rw [if_pos hm]; exact h
  · rw [if_neg hm]
    refine List.Nodup.append h (List.nodup_singleton _) ?_
    intro x hx hx1
    rw [List.mem_singleton] at hx1
    subst hx1
    exact hm (mem_dictKeys.mp hx)

theorem nodup_dictKeys_foldl_insert {α β : Type} (f : β → String) (v : β → α)
    (l : List β) (D : Dict α) (hD : (dictKeys D).Nodup) :
    (dictKeys (l.foldl (fun d s => dictInsert d (f s) (v s)) D)).Nodup := by
  induction l generalizing D with
  | nil => exact hD
  | cons s l ih => exact ih _ (nodup_dictKeys_insert _ _ hD)

theorem lookup_of_mem_nodupKeys {α : Type} {d : Dict α}
    (hnd : (dictKeys d).Nodup) {p : String × α} (hp : p ∈ d) :
    d.lookup p.1 = some p.2 := by
  induction d with
  | nil => cases hp
  | cons q l ih =>
    rw [dictKeys] at hnd
    simp only [List.map_cons, List.nodup_cons] at hnd
    rcases List.mem_cons.mp hp with rfl | hp'
    · show List.lookup p.1 (p :: l) = some p.2
      obtain ⟨pk, pv⟩ := p
      simp [List.lookup]
    · have hk : p.1 ≠ q.1 := by
        intro h
        exact hnd.1 (h ▸ List.mem_map.mpr ⟨p, hp', rfl⟩)
      obtain ⟨qk, qv⟩ := q
      show List.lookup p.1 ((qk, qv) :: l) = some p.2
      rw [List.lookup]
      have : (p.1 == qk) = false := beq_eq_false_iff_ne.mpr hk
      rw [this]
      exact ih hnd.2 hp'

/-! ## Well-formedness of graphs produced by `build_dependency_graph` -/

/-- Structural facts about every graph `build_dependency_graph` returns:
the three maps share one key set, every id stored in a `dependents` value
is a key, and the `dependencies` key list has no duplicates. -/
structure GraphWF (g : StepDependencyGraph) : Prop where
  keys_steps : ∀ k, dictMem g.steps k = dictMem g.dependencies k
  keys_dependents : ∀ k, dictMem g.dependents k = dictMem g.dependencies k
  vals_dependents : ∀ p ∈ g.dependents, ∀ x ∈ p.2, dictMem g.dependencies x = true
  nodup_deps : (dictKeys g.dependencies).Nodup

/-- The inner reverse-edge loop preserves the key set of the dependents
map and keeps every stored id a key of `base`. -/
theorem reverse_fold_inner_spec (base : Dict (List String)) (sid : String)
    (hsid : dictMem base sid = true) (l : List String) :
    ∀ dd dd', (l.foldlM (fun (dd' : Dict (List String)) dep_id =>
        match dd'.lookup dep_id with
        | none => Except.error ("KeyError: " ++ dep_id)
        | some l' => Except.ok (dictInsert dd' dep_id (setAdd l' sid))) dd)
        = Except.ok dd' →
      (∀ p ∈ dd, ∀ x ∈ p.2, dictMem base x = true) →
      (∀ k, dictMem dd' k = dictMem dd k) ∧
      (∀ p ∈ dd', ∀ x ∈ p.2, dictMem base x = true) := by
  induction l with
  | nil =>
    intro dd dd' h hV
    cases h
    exact ⟨fun _ => rfl, hV⟩
  | cons a as ih =>
    intro dd dd' h hV
    rw [List.foldlM_cons] at h
    cases hl : dd.lookup a with
    | none =>
      rw [hl] at h
      exact Except.noConfusion h
    | some lv =>
      rw [hl] at h
      have hmem : (a, lv) ∈ dd := mem_of_lookup_eq_some hl
      have hamem : dictMem dd a = true := by
        rw [← lookup_isSome_eq_dictMem, hl]
        rfl
      have hV' : ∀ p ∈ dictInsert dd a (setAdd lv sid), ∀ x ∈ p.2,
          dictMem base x = true := by
        intro p hp x hx
        rcases mem_of_mem_dictInsert hp with hp' | rfl
        · exact hV p hp' x hx
        · rcases mem_setAdd.mp hx with hx' | rfl
          · exact hV _ hmem x hx'
          · exact hsid
      obtain ⟨hkeys, hvals⟩ := ih _ _ h hV'
      refine ⟨fun k => ?_, hvals⟩
      rw [hkeys k]
      cases hdk : dictMem dd k with
      | true => simp [dictMem_insert_iff, hdk]
      | false =>
        cases hik : dictMem (dictInsert dd a (setAdd lv sid)) k with
        | true =>
          rcases dictMem_insert_iff.mp hik with h' | rfl
          · rw [h'] at hdk
            cases hdk
          · rw [hamem] at hdk
            cases hdk
        | false => rfl

/-- The outer reverse-edge loop: same preservation, entry by entry. -/
theorem reverse_fold_outer_spec (base : Dict (List String))
    (entries : List (String × List String))
    (hsid : ∀ p ∈ entries, dictMem base p.1 = true) :
    ∀ dd dd', (entries.foldlM (fun dd p =>
        p.2.foldlM (fun (dd' : Dict (List String)) dep_id =>
          match dd'.lookup dep_id with
          | none => Except.error ("KeyError: " ++ dep_id)
          | some l => Except.ok (dictInsert dd' dep_id (setAdd l p.1))) dd)
        dd) = Except.ok dd' →
      (∀ p ∈ dd, ∀ x ∈ p.2, dictMem base x = true) →
      (∀ k, dictMem dd' k = dictMem dd k) ∧
      (∀ p ∈ dd', ∀ x ∈ p.2, dictMem base x = true) := by
  induction entries with
  | nil =>
    intro dd dd' h hV
    cases h
    exact ⟨fun _ => rfl, hV⟩
  | cons p ps ih =>
    intro dd dd' h hV
    rw [List.foldlM_cons] at h
    cases hstep : (p.2.foldlM (fun (dd' : Dict (List String)) dep_id =>
        match dd'.lookup dep_id with
        | none => Except.error ("KeyError: " ++ dep_id)
        | some l => Except.ok (dictInsert dd' dep_id (setAdd l p.1))) dd) with
    | error e =>
      rw [hstep] at h
      exact Except.noConfusion h
    | ok dd1 =>
      rw [hstep] at h
      obtain ⟨hk1, hV1⟩ := reverse_fold_inner_spec base p.1
        (hsid p (List.mem_cons_self _ _)) p.2 dd dd1 hstep hV
      obtain ⟨hk2, hV2⟩ := ih (fun q hq => hsid q (List.mem_cons_of_mem _ hq))
        dd1 dd' h hV1
      exact ⟨fun k => (hk2 k).trans (hk1 k), hV2⟩

/-- Every graph `build_dependency_graph` returns is well formed. -/
theorem build_ok_GraphWF (steps : List WorkflowStep) (g : StepDependencyGraph)
    (h : build_dependency_graph steps = Except.ok g) : GraphWF g := by
  unfold build_dependency_graph at h
  dsimp only at h
  cases hfold : (steps.foldl (fun d s => dictInsert d s.id s.dependencies.dedup)
      []).foldlM (fun dd p =>
        p.2.foldlM (fun (dd' : Dict (List String)) dep_id =>
          match dd'.lookup dep_id with
          | none => Except.error ("KeyError: " ++ dep_id)
          | some l => Except.ok (dictInsert dd' dep_id (setAdd l p.1))) dd)
      (steps.foldl (fun d s => dictInsert d s.id []) []) with
  | error e =>
    rw [hfold] at h
    exact Except.noConfusion h
  | ok dd' =>
    rw [hfold] at h
    cases h
    have hsid : ∀ p ∈ steps.foldl
        (fun d s => dictInsert d s.id s.dependencies.dedup) [],
        dictMem (steps.foldl (fun d s => dictInsert d s.id s.dependencies.dedup)
          []) p.1 = true := by
      intro p hp
      rw [← mem_dictKeys]
      exact List.mem_map.mpr ⟨p, hp, rfl⟩
    obtain ⟨hkeys, hvals⟩ := reverse_fold_outer_spec
      (steps.foldl (fun d s => dictInsert d s.id s.dependencies.dedup) []) _
      hsid _ _ hfold (by
        intro p hp x hx
        rcases mem_foldl_insert (fun s => s.id) (fun _ => ([] : List String))
          steps [] p hp with h0 | ⟨s, _, rfl⟩
        · cases h0
        · cases hx)
    refine ⟨?_, ?_, hvals, ?_⟩
    · intro k
      show dictMem (steps.foldl (fun d s => dictInsert d s.id s) []) k
        = dictMem (steps.foldl
            (fun d s => dictInsert d s.id s.dependencies.dedup) []) k
      rw [Bool.eq_iff_iff,
        dictMem_foldl_insert (fun s => s.id) (fun s => s) steps [] k,
        dictMem_foldl_insert (fun s => s.id)
          (fun s => s.dependencies.dedup) steps [] k]
      exact Iff.rfl
    · intro k
      show dictMem dd' k = dictMem (steps.foldl
          (fun d s => dictInsert d s.id s.dependencies.dedup) []) k
      rw [hkeys k, Bool.eq_iff_iff,
        dictMem_foldl_insert (fun s => s.id) (fun _ => ([] : List String))
          steps [] k,
        dictMem_foldl_insert (fun s => s.id)
          (fun s => s.dependencies.dedup) steps [] k]
    · exact nodup_dictKeys_foldl_insert (fun s => s.id)
        (fun s => s.dependencies.dedup) steps [] List.nodup_nil

/-! ## Behaviour of the scheduler-loop components -/

/-- How the dispatch fold evolves the state: only `runningTasks` and the
dispatch log grow, and everything added names a ready step. -/
def DispatchEvolves (l : List String) (acc res : ExecState) : Prop :=
  res.results = acc.results ∧
  res.readySteps = acc.readySteps ∧
  res.completedSteps = acc.completedSteps ∧
  res.failedSteps = acc.failedSteps ∧
  (∀ x ∈ res.runningTasks, x ∈ acc.runningTasks ∨ x ∈ l) ∧
  (∀ e ∈ res.dispatchLog,
    e ∈ acc.dispatchLog ∨ (e.1 ∈ l ∧ e.2 = dictKeys acc.results))

theorem dispatch_fold_spec (g : StepDependencyGraph) (l : List String) :
    ∀ acc out, ((l.foldlM (fun (st' : ExecState) step_id =>
        match g.steps.lookup step_id with
        | none => Except.error ("KeyError: " ++ step_id, st')
        | some _step =>
          Except.ok { st' with
            runningTasks := setAdd st'.runningTasks step_id,
            dispatchLog := st'.dispatchLog ++ [(step_id, dictKeys st'.results)] })
        acc) = Except.ok out ∨
      ∃ e, (l.foldlM (fun (st' : ExecState) step_id =>
        match g.steps.lookup step_id with
        | none => Except.error ("KeyError: " ++ step_id, st')
        | some _step =>
          Except.ok { st' with
            runningTasks := setAdd st'.runningTasks step_id,
            dispatchLog := st'.dispatchLog ++ [(step_id, dictKeys st'.results)] })
        acc) = Except.error (e, out)) →
      DispatchEvolves l acc out := by
  induction l with
  | nil =>
    intro acc out h
    rcases h with h | ⟨e, h⟩
    · cases h
      exact ⟨rfl, rfl, rfl, rfl, fun x hx => Or.inl hx, fun e he => Or.inl he⟩
    · exact Except.noConfusion h
  | cons a as ih =>
    intro acc out h
    have hred : ∀ (z : Except (String × ExecState) ExecState),
        ((a :: as).foldlM (fun (st' : ExecState) step_id =>
          match g.steps.lookup step_id with
          | none => Except.error ("KeyError: " ++ step_id, st')
          | some _step =>
            Except.ok { st' with
              runningTasks := setAdd st'.runningTasks step_id,
              dispatchLog := st'.dispatchLog ++ [(step_id, dictKeys st'.results)] })
          acc) = z →
        (match g.steps.lookup a with
          | none => Except.error ("KeyError: " ++ a, acc)
          | some _step =>
            (as.foldlM (fun (st' : ExecState) step_id =>
              match g.steps.lookup step_id with
              | none => Except.error ("KeyError: " ++ step_id, st')
              | some _step =>
                Except.ok { st' with
                  runningTasks := setAdd st'.runningTasks step_id,
                  dispatchLog :=
                    st'.dispatchLog ++ [(step_id, dictKeys st'.results)] })
              { acc with
                runningTasks := setAdd acc.runningTasks a,
                dispatchLog :=
                  acc.dispatchLog ++ [(a, dictKeys acc.results)] })) = z := by
      intro z hz
      rw [List.foldlM_cons] at hz
      cases hla : g.steps.lookup a with
      | none => rw [hla] at hz; exact hz
      | some w => rw [hla] at hz; exact hz
    cases hla : g.steps.lookup a with
    | none =>
      rcases h with h | ⟨e, h⟩
      · have := hred _ h
        rw [hla] at this
        exact Except.noConfusion this
      · have := hred _ h
        rw [hla] at this
        cases this
        exact ⟨rfl, rfl, rfl, rfl, fun x hx => Or.inl hx, fun e he => Or.inl he⟩
    | some w =>
      have hnext : DispatchEvolves as
          { acc with
            runningTasks := setAdd acc.runningTasks a,
            dispatchLog := acc.dispatchLog ++ [(a, dictKeys acc.results)] }
          out := by
        rcases h with h | ⟨e, h⟩
        · have := hred _ h
          rw [hla] at this
          exact ih _ _ (Or.inl this)
        · have := hred _ h
          rw [hla] at this
          exact ih _ _ (Or.inr ⟨e, this⟩)
      obtain ⟨h1, h2, h3, h4, h5, h6⟩ := hnext
      refine ⟨h1, h2, h3, h4, ?_, ?_⟩
      · intro x hx
        rcases h5 x hx with hx' | hx'
        · rcases mem_setAdd.mp hx' with hx'' | rfl
          · exact Or.inl hx''
          · exact Or.inr (List.mem_cons_self _ _)
        · exact Or.inr (List.mem_cons_of_mem _ hx')
      · intro e he
        rcases h6 e he with he' | he'
        · rcases List.mem_append.mp he' with he'' | he''
          · exact Or.inl he''
          · rw [List.mem_singleton] at he''
            subst he''
            exact Or.inr ⟨List.mem_cons_self _ _, rfl⟩
        · exact Or.inr ⟨List.mem_cons_of_mem _ he'.1, he'.2⟩

/-- `dispatchReady` on success: state evolution plus the cleared ready set. -/
theorem dispatchReady_ok_spec (g : StepDependencyGraph) (st out : ExecState)
    (h : dispatchReady g st = .ok out) :
    out.results = st.results ∧
    out.readySteps = [] ∧
    out.completedSteps = st.completedSteps ∧
    out.failedSteps = st.failedSteps ∧
    (∀ x ∈ out.runningTasks, x ∈ st.runningTasks ∨ x ∈ st.readySteps) ∧
    (∀ e ∈ out.dispatchLog,
      e ∈ st.dispatchLog ∨ (e.1 ∈ st.readySteps ∧ e.2 = dictKeys st.results)) := by
  unfold dispatchReady at h
  cases hf : st.readySteps.foldlM (fun (st' : ExecState) step_id =>
      match g.steps.lookup step_id with
      | none => Except.error ("KeyError: " ++ step_id, st')
      | some _step =>
        Except.ok { st' with
          runningTasks := setAdd st'.runningTasks step_id,
          dispatchLog := st'.dispatchLog ++ [(step_id, dictKeys st'.results)] })
      st with
  | error pe =>
    rw [hf] at h
    exact Except.noConfusion h
  | ok mid =>
    rw [hf] at h
    cases h
    obtain ⟨h1, h2, h3, h4, h5, h6⟩ := dispatch_fold_spec g st.readySteps st mid
      (Or.inl hf)
    exact ⟨h1, rfl, h3, h4, h5, h6⟩

/-- `dispatchReady` on a `KeyError`: the carried state is the fold
accumulator, whose ready set is untouched. -/
theorem dispatchReady_err_spec (g : StepDependencyGraph) (st : ExecState)
    (e : String) (out : ExecState) (h : dispatchReady g st = .error (e, out)) :
    out.results = st.results ∧
    out.readySteps = st.readySteps ∧
    out.completedSteps = st.completedSteps ∧
    out.failedSteps = st.failedSteps ∧
    (∀ x ∈ out.runningTasks, x ∈ st.runningTasks ∨ x ∈ st.readySteps) ∧
    (∀ q ∈ out.dispatchLog,
      q ∈ st.dispatchLog ∨ (q.1 ∈ st.readySteps ∧ q.2 = dictKeys st.results)) := by
  unfold dispatchReady at h
  cases hf : st.readySteps.foldlM (fun (st' : ExecState) step_id =>
      match g.steps.lookup step_id with
      | none => Except.error ("KeyError: " ++ step_id, st')
      | some _step =>
        Except.ok { st' with
          runningTasks := setAdd st'.runningTasks step_id,
          dispatchLog := st'.dispatchLog ++ [(step_id, dictKeys st'.results)] })
      st with
  | error pe =>
    rw [hf] at h
    cases h
    exact dispatch_fold_spec g st.readySteps st out (Or.inr ⟨e, hf⟩)
  | ok mid =>
    rw [hf] at h
    exact Except.noConfusion h

/-- How the newly-ready-dependents fold evolves the state: only the ready
set grows, and everything added passed the full-dependency check against
the current `results`. -/
def DependentEvolves (g : StepDependencyGraph) (depList : List String)
    (acc res : ExecState) : Prop :=
  res.results = acc.results ∧
  res.runningTasks = acc.runningTasks ∧
  res.completedSteps = acc.completedSteps ∧
  res.failedSteps = acc.failedSteps ∧
  res.dispatchLog = acc.dispatchLog ∧
  (∀ x ∈ res.readySteps, x ∈ acc.readySteps ∨
    (x ∈ depList ∧ ∃ depIds, g.dependencies.lookup x = some depIds ∧
      depIds.all (fun d => dictMem acc.results d) = true))

theorem dependent_fold_evolves (g : StepDependencyGraph) (depList : List String) :
    ∀ acc out, ((depList.foldlM (fun (st2 : ExecState) dependent_id =>
        match g.dependencies.lookup dependent_id with
        | none => Except.error ("KeyError: " ++ dependent_id, st2)
        | some depIds =>
          if depIds.all (fun dep_id => dictMem st2.results dep_id) then
            Except.ok { st2 with readySteps := setAdd st2.readySteps dependent_id }
          else Except.ok st2) acc) = Except.ok out ∨
      ∃ e, (depList.foldlM (fun (st2 : ExecState) dependent_id =>
        match g.dependencies.lookup dependent_id with
        | none => Except.error ("KeyError: " ++ dependent_id, st2)
        | some depIds =>
          if depIds.all (fun dep_id => dictMem st2.results dep_id) then
            Except.ok { st2 with readySteps := setAdd st2.readySteps dependent_id }
          else Except.ok st2) acc) = Except.error (e, out)) →
      DependentEvolves g depList acc out := by
  induction depList with
  | nil =>
    intro acc out h
    rcases h with h | ⟨e, h⟩
    · cases h
      exact ⟨rfl, rfl, rfl, rfl, rfl, fun x hx => Or.inl hx⟩
    · exact Except.noConfusion h
  | cons a as ih =>
    intro acc out h
    have hcomp : ∀ acc', DependentEvolves g as acc' out →
        (acc'.results = acc.results ∧ acc'.runningTasks = acc.runningTasks ∧
          acc'.completedSteps = acc.completedSteps ∧
          acc'.failedSteps = acc.failedSteps ∧
          acc'.dispatchLog = acc.dispatchLog) →
        (∀ x ∈ acc'.readySteps, x ∈ acc.readySteps ∨
          (x = a ∧ ∃ depIds, g.dependencies.lookup a = some depIds ∧
            depIds.all (fun d => dictMem acc.results d) = true)) →
        DependentEvolves g (a :: as) acc out := by
      intro acc' hev hfields hready
      obtain ⟨h1, h2, h3, h4, h5, h6⟩ := hev
      obtain ⟨f1, f2, f3, f4, f5⟩ := hfields
      refine ⟨h1.trans f1, h2.trans f2, h3.trans f3, h4.trans f4,
        h5.trans f5, ?_⟩
      intro x hx
      rcases h6 x hx with hx' | ⟨hxl, depIds, hdl, hall⟩
      · rcases hready x hx' with hx'' | ⟨rfl, depIds, hdl, hall⟩
        · exact Or.inl hx''
        · exact Or.inr ⟨List.mem_cons_self _ _, depIds, hdl, hall⟩
      · rw [f1] at hall
        exact Or.inr ⟨List.mem_cons_of_mem _ hxl, depIds, hdl, hall⟩
    rcases h with h | ⟨e, h⟩ <;> rw [List.foldlM_cons] at h <;>
      cases hla : g.dependencies.lookup a
    · rw [hla] at h
      exact Except.noConfusion h
    · rename_i depIds
      rw [hla] at h
      dsimp only at h
      cases hall : depIds.all (fun dep_id => dictMem acc.results dep_id) with
      | true =>
        rw [if_pos hall] at h
        exact hcomp _ (ih _ _ (Or.inl h)) ⟨rfl, rfl, rfl, rfl, rfl⟩
          (fun x hx => by
            rcases mem_setAdd.mp hx with hx' | rfl
            · exact Or.inl hx'
            · exact Or.inr ⟨rfl, depIds, hla, hall⟩)
      | false =>
        rw [if_neg (by rw [hall]; exact Bool.false_ne_true)] at h
        exact hcomp _ (ih _ _ (Or.inl h)) ⟨rfl, rfl, rfl, rfl, rfl⟩
          (fun x hx => Or.inl hx)
    · rw [hla] at h
      cases h
      exact ⟨rfl, rfl, rfl, rfl, rfl, fun x hx => Or.inl hx⟩
    · rename_i depIds
      rw [hla] at h
      dsimp only at h
      cases hall : depIds.all (fun dep_id => dictMem acc.results dep_id) with
      | true =>
        rw [if_pos hall] at h
        exact hcomp _ (ih _ _ (Or.inr ⟨e, h⟩)) ⟨rfl, rfl, rfl, rfl, rfl⟩
          (fun x hx => by
            rcases mem_setAdd.mp hx with hx' | rfl
            · exact Or.inl hx'
            · exact Or.inr ⟨rfl, depIds, hla, hall⟩)
      | false =>
        rw [if_neg (by rw [hall]; exact Bool.false_ne_true)] at h
        exact hcomp _ (ih _ _ (Or.inr ⟨e, h⟩)) ⟨rfl, rfl, rfl, rfl, rfl⟩
          (fun x hx => Or.inl hx)

/-- A failing newly-ready-dependents fold fails only because some
dependent id is missing from the forward map. -/
theorem dependent_fold_err_reason (g : StepDependencyGraph)
    (depList : List String) :
    ∀ acc e out, (depList.foldlM (fun (st2 : ExecState) dependent_id =>
        match g.dependencies.lookup dependent_id with
        | none => Except.error ("KeyError: " ++ dependent_id, st2)
        | some depIds =>
          if depIds.all (fun dep_id => dictMem st2.results dep_id) then
            Except.ok { st2 with readySteps := setAdd st2.readySteps dependent_id }
          else Except.ok st2) acc) = Except.error (e, out) →
      ∃ x ∈ depList, g.dependencies.lookup x = none := by
  induction depList with
  | nil =>
    intro acc e out h
    exact Except.noConfusion h
  | cons a as ih =>
    intro acc e out h
    rw [List.foldlM_cons] at h
    cases hla : g.dependencies.lookup a with
    | none => exact ⟨a, List.mem_cons_self _ _, hla⟩
    | some depIds =>
      rw [hla] at h
      dsimp only at h
      cases hall : depIds.all (fun dep_id => dictMem acc.results dep_id) with
      | true =>
        rw [if_pos hall] at h
        obtain ⟨x, hx, hx'⟩ := ih _ _ _ h
        exact ⟨x, List.mem_cons_of_mem _ hx, hx'⟩
      | false =>
        rw [if_neg (by rw [hall]; exact Bool.false_ne_true)] at h
        obtain ⟨x, hx, hx'⟩ := ih _ _ _ h
        exact ⟨x, List.mem_cons_of_mem _ hx, hx'⟩

/-- `processOne` on success: the completed step's result is recorded in
`results` and `completed_steps`, the execution leaves `_running_tasks`, the
log and failure map are untouched, and every newly ready step passed the
full-dependency check. -/
theorem processOne_ok_spec (g : StepDependencyGraph)
    (exec : String → Except String Nat) (st : ExecState) (id : String)
    (out : ExecState) (h : processOne g exec st id = .ok out) :
    ∃ r, exec id = .ok r ∧
      out.results = dictInsert st.results id r ∧
      out.completedSteps = dictInsert st.completedSteps id r ∧
      out.runningTasks = st.runningTasks.filter (fun x => x ≠ id) ∧
      out.failedSteps = st.failedSteps ∧
      out.dispatchLog = st.dispatchLog ∧
      (∀ x ∈ out.readySteps, x ∈ st.readySteps ∨
        ((∃ l, g.dependents.lookup id = some l ∧ x ∈ l) ∧
          ∃ depIds, g.dependencies.lookup x = some depIds ∧
            depIds.all (fun d => dictMem out.results d) = true)) := by
  unfold processOne at h
  dsimp only at h
  cases hex : exec id with
  | error e =>
    rw [hex] at h
    exact Except.noConfusion h
  | ok r =>
    rw [hex] at h
    dsimp only at h
    cases hdl : g.dependents.lookup id with
    | none =>
      rw [hdl] at h
      exact Except.noConfusion h
    | some l =>
      rw [hdl] at h
      dsimp only at h
      obtain ⟨h1, h2, h3, h4, h5, h6⟩ := dependent_fold_evolves g l _ out
        (Or.inl h)
      refine ⟨r, rfl, h1, h3, h2, h4, h5, ?_⟩
      intro x hx
      rcases h6 x hx with hx' | ⟨hxl, depIds, hdix, hall⟩
      · exact Or.inl hx'
      · refine Or.inr ⟨⟨l, rfl, hxl⟩, depIds, hdix, ?_⟩
        rw [h1]
        exact hall

/-- `processOne` on a raised error: either the step executor raised (the
fail-fast branch: the failure is recorded and `_running_tasks` cleared) or
one of the two graph subscripts raised `KeyError`. -/
theorem processOne_err_spec (g : StepDependencyGraph)
    (exec : String → Except String Nat) (st : ExecState) (id : String)
    (e : String) (out : ExecState)
    (h : processOne g exec st id = .error (e, out)) :
    out.dispatchLog = st.dispatchLog ∧
    (∀ x ∈ out.runningTasks, x ∈ st.runningTasks) ∧
    ((exec id = .error e ∧
        out.failedSteps = dictInsert st.failedSteps id e ∧
        out.runningTasks = [] ∧
        out.results = st.results ∧
        out.completedSteps = st.completedSteps ∧
        out.readySteps = st.readySteps) ∨
      (∃ r, exec id = .ok r ∧
        out.results = dictInsert st.results id r ∧
        out.completedSteps = dictInsert st.completedSteps id r ∧
        out.failedSteps = st.failedSteps ∧
        (∀ x ∈ out.readySteps, x ∈ st.readySteps ∨
          ((∃ l, g.dependents.lookup id = some l ∧ x ∈ l) ∧
            ∃ depIds, g.dependencies.lookup x = some depIds ∧
              depIds.all (fun d => dictMem out.results d) = true)) ∧
        (g.dependents.lookup id = none ∨
          ∃ l, g.dependents.lookup id = some l ∧
            ∃ x ∈ l, g.dependencies.lookup x = none))) := by
  unfold processOne at h
  dsimp only at h
  cases hex : exec id with
  | error e' =>
    rw [hex] at h
    cases h
    exact ⟨rfl, fun x hx => absurd hx (List.not_mem_nil _),
      Or.inl ⟨rfl, rfl, rfl, rfl, rfl, rfl⟩⟩
  | ok r =>
    rw [hex] at h
    dsimp only at h
    cases hdl : g.dependents.lookup id with
    | none =>
      rw [hdl] at h
      cases h
      exact ⟨rfl, fun x hx => List.mem_of_mem_filter hx,
        Or.inr ⟨r, rfl, rfl, rfl, rfl, fun x hx => Or.inl hx, Or.inl rfl⟩⟩
    | some l =>
      rw [hdl] at h
      dsimp only at h
      obtain ⟨h1, h2, h3, h4, h5, h6⟩ := dependent_fold_evolves g l _ out
        (Or.inr ⟨e, h⟩)
      obtain ⟨x0, hx0, hx0'⟩ := dependent_fold_err_reason g l _ e out h
      refine ⟨h5, ?_, Or.inr ⟨r, rfl, h1, h3, h4, ?_, Or.inr ⟨l, rfl, x0, hx0, hx0'⟩⟩⟩
      · intro x hx
        rw [h2] at hx
        exact List.mem_of_mem_filter hx
      · intro x hx
        rcases h6 x hx with hx' | ⟨hxl, depIds, hdix, hall⟩
        · exact Or.inl hx'
        · refine Or.inr ⟨⟨l, rfl, hxl⟩, depIds, hdix, ?_⟩
          rw [h1]
          exact hall

/-- The `done`-set processing loop keeps any property that single-step
processing of an in-flight id keeps. -/
theorem processDone_preserves (g : StepDependencyGraph)
    (exec : String → Except String Nat) (P : ExecState → Prop)
    (hp_ok : ∀ st id st', id ∈ st.runningTasks →
      processOne g exec st id = .ok st' → P st → P st')
    (hp_err : ∀ st id e st', id ∈ st.runningTasks →
      processOne g exec st id = .error (e, st') → P st → P st') :
    ∀ done st, done.Nodup → (∀ x ∈ done, x ∈ st.runningTasks) → P st →
      (∀ st', processDone g exec done st = .ok st' → P st') ∧
      (∀ e st', processDone g exec done st = .error (e, st') → P st') := by
  intro done
  induction done with
  | nil =>
    intro st _ _ hP
    refine ⟨fun st' h => ?_, fun e st' h => ?_⟩
    · cases h
      exact hP
    · exact Except.noConfusion h
  | cons a as ih =>
    intro st hnd hsub hP
    have hstep : ∀ (z : Except (String × ExecState) ExecState),
        processDone g exec (a :: as) st = z →
        ((processOne g exec st a) >>= fun st1 =>
          processDone g exec as st1) = z := by
      intro z hz
      unfold processDone at hz ⊢
      rw [List.foldlM_cons] at hz
      exact hz
    have hmem : a ∈ st.runningTasks := hsub a (List.mem_cons_self _ _)
    refine ⟨fun st' h => ?_, fun e st' h => ?_⟩
    · have h' := hstep _ h
      cases hpo : processOne g exec st a with
      | error pe =>
        rw [hpo] at h'
        exact Except.noConfusion h'
      | ok st1 =>
        rw [hpo] at h'
        have hP1 := hp_ok st a st1 hmem hpo hP
        obtain ⟨r, _, _, _, hrun, _, _, _⟩ := processOne_ok_spec g exec st a st1 hpo
        have hsub1 : ∀ x ∈ as, x ∈ st1.runningTasks := by
          intro x hx
          rw [hrun]
          refine List.mem_filter.mpr ⟨hsub x (List.mem_cons_of_mem _ hx), ?_⟩
          have : x ≠ a := fun hxa => (List.nodup_cons.mp hnd).1 (hxa ▸ hx)
          simpa using this
        exact (ih st1 (List.nodup_cons.mp hnd).2 hsub1 hP1).1 st' h'
    · have h' := hstep _ h
      cases hpo : processOne g exec st a with
      | error pe =>
        rw [hpo] at h'
        cases h'
        exact hp_err st a _ _ hmem hpo hP
      | ok st1 =>
        rw [hpo] at h'
        have hP1 := hp_ok st a st1 hmem hpo hP
        obtain ⟨r, _, _, _, hrun, _, _, _⟩ := processOne_ok_spec g exec st a st1 hpo
        have hsub1 : ∀ x ∈ as, x ∈ st1.runningTasks := by
          intro x hx
          rw [hrun]
          refine List.mem_filter.mpr ⟨hsub x (List.mem_cons_of_mem _ hx), ?_⟩
          have : x ≠ a := fun hxa => (List.nodup_cons.mp hnd).1 (hxa ▸ hx)
          simpa using this
        exact (ih st1 (List.nodup_cons.mp hnd).2 hsub1 hP1).2 e st' h'

/-- The chosen `done` set has no duplicates and names only in-flight
executions. -/
theorem chooseDone_spec (picked running : List String) :
    (chooseDone picked running).Nodup ∧
    ∀ x ∈ chooseDone picked running, x ∈ running := by
  unfold chooseDone
  by_cases hd : ((picked.filter (fun x => running.contains x)).dedup).isEmpty = true
  · rw [if_pos hd]
    refine ⟨?_, fun x hx => List.mem_of_mem_take hx⟩
    cases running with
    | nil => exact List.nodup_nil
    | cons a l => simp [List.take]
  · rw [if_neg hd]
    refine ⟨List.nodup_dedup _, fun x hx => ?_⟩
    have hx' := List.mem_dedup.mp hx
    have := List.of_mem_filter hx'
    simpa using this

/-- Any property preserved by dispatching and by processing one in-flight
completion holds of the state every outcome of the scheduler loop carries. -/
theorem execLoop_preserves (g : StepDependencyGraph)
    (exec : String → Except String Nat) (schedule : Nat → List String)
    (P : ExecState → Prop)
    (hd_ok : ∀ st st', dispatchReady g st = .ok st' → P st → P st')
    (hd_err : ∀ st e st', dispatchReady g st = .error (e, st') → P st → P st')
    (hp_ok : ∀ st id st', id ∈ st.runningTasks →
      processOne g exec st id = .ok st' → P st → P st')
    (hp_err : ∀ st id e st', id ∈ st.runningTasks →
      processOne g exec st id = .error (e, st') → P st → P st') :
    ∀ fuel t st, P st → P (execLoop g exec schedule fuel t st).state := by
  intro fuel
  induction fuel with
  | zero =>
    intro t st hP
    exact hP
  | succ n ih =>
    intro t st hP
    rw [execLoop]
    split
    · exact hP
    · split
      · next e st' heq =>
        exact hd_err st e st' heq hP
      · next st1 heq =>
        have hP1 := hd_ok st st1 heq hP
        split
        · exact ih _ _ hP1
        · obtain ⟨hnd, hsub⟩ := chooseDone_spec (schedule t) st1.runningTasks
          dsimp only
          split
          · next e st2 heq2 =>
            exact (processDone_preserves g exec P hp_ok hp_err _ st1 hnd hsub
              hP1).2 e st2 heq2
          · next st2 heq2 =>
            exact ih _ _ ((processDone_preserves g exec P hp_ok hp_err _ st1
              hnd hsub hP1).1 st2 heq2)

/-! ## C4: cyclic dependency graphs -/

theorem dictMem_insert_false {α : Type} {d : Dict α} {k k' : String} {v : α}
    (h : dictMem d k = false) (hne : k ≠ k') :
    dictMem (dictInsert d k' v) k = false := by
  cases hm : dictMem (dictInsert d k' v) k with
  | false => rfl
  | true =>
    rcases dictMem_insert_iff.mp hm with h' | h'
    · rw [h'] at h
      cases h
    · exact absurd h' hne

/-- The members of a dependency-closed subset `C` (every member has a
dependency inside `C`, e.g. the members of a dependency cycle) are never
completed, never ready and never dispatched. -/
def CycUntouched (C : List String) (st : ExecState) : Prop :=
  (∀ x ∈ C, dictMem st.results x = false) ∧
  (∀ x ∈ C, x ∉ st.readySteps) ∧
  (∀ x ∈ C, x ∉ st.runningTasks) ∧
  (∀ x ∈ C, ∀ e ∈ st.dispatchLog, e.1 ≠ x)

theorem cycUntouched_preserved (g : StepDependencyGraph)
    (exec : String → Except String Nat) (schedule : Nat → List String)
    (C : List String) (hC : ∀ x ∈ C, ∃ y ∈ C, y ∈ depsOf g x) :
    ∀ fuel t st, CycUntouched C st →
      CycUntouched C (execLoop g exec schedule fuel t st).state := by
  have hready : ∀ (stres : Dict Nat) (x : String)
      (hx : x ∈ C) (depIds : List String)
      (hdix : g.dependencies.lookup x = some depIds)
      (hall : depIds.all (fun d => dictMem stres d) = true)
      (hres : ∀ y ∈ C, dictMem stres y = false), False := by
    intro stres x hx depIds hdix hall hres
    obtain ⟨y, hy, hydep⟩ := hC x hx
    rw [depsOf, hdix] at hydep
    have := List.all_eq_true.mp hall y hydep
    rw [hres y hy] at this
    cases this
  refine execLoop_preserves g exec schedule (CycUntouched C) ?_ ?_ ?_ ?_
  · intro st st' h hP
    obtain ⟨hres, hready', hrun, hlog⟩ := hP
    obtain ⟨e1, e2, _, _, e5, e6⟩ := dispatchReady_ok_spec g st st' h
    refine ⟨fun x hx => e1 ▸ hres x hx, ?_, ?_, ?_⟩
    · intro x hx
      rw [e2]
      exact List.not_mem_nil x
    · intro x hx hmem
      rcases e5 x hmem with h' | h'
      · exact hrun x hx h'
      · exact hready' x hx h'
    · intro x hx e he
      rcases e6 e he with h' | h'
      · exact hlog x hx e h'
      · exact fun hx1 => hready' x hx (hx1 ▸ h'.1)
  · intro st e st' h hP
    obtain ⟨hres, hready', hrun, hlog⟩ := hP
    obtain ⟨e1, e2, _, _, e5, e6⟩ := dispatchReady_err_spec g st e st' h
    refine ⟨fun x hx => e1 ▸ hres x hx, ?_, ?_, ?_⟩
    · intro x hx
      rw [e2]
      exact hready' x hx
    · intro x hx hmem
      rcases e5 x hmem with h' | h'
      · exact hrun x hx h'
      · exact hready' x hx h'
    · intro x hx q hq
      rcases e6 q hq with h' | h'
      · exact hlog x hx q h'
      · exact fun hx1 => hready' x hx (hx1 ▸ h'.1)
  · intro st id st' hid h hP
    obtain ⟨hres, hready', hrun, hlog⟩ := hP
    obtain ⟨r, _, pres, _, prun, _, plog, pready⟩ :=
      processOne_ok_spec g exec st id st' h
    have hidC : id ∉ C := fun hidc => hrun id hidc hid
    have hres' : ∀ x ∈ C, dictMem st'.results x = false := by
      intro x hx
      rw [pres]
      exact dictMem_insert_false (hres x hx) (fun hxid => hidC (hxid ▸ hx))
    refine ⟨hres', ?_, ?_, ?_⟩
    · intro x hx hmem
      rcases pready x hmem with h' | ⟨_, depIds, hdix, hall⟩
      · exact hready' x hx h'
      · exact hready st'.results x hx depIds hdix hall hres'
    · intro x hx hmem
      rw [prun] at hmem
      exact hrun x hx (List.mem_of_mem_filter hmem)
    · intro x hx q hq
      rw [plog] at hq
      exact hlog x hx q hq
  · intro st id e st' hid h hP
    obtain ⟨hres, hready', hrun, hlog⟩ := hP
    obtain ⟨plog, prun, hbr⟩ := processOne_err_spec g exec st id e st' h
    have hidC : id ∉ C := fun hidc => hrun id hidc hid
    have hlog' : ∀ x ∈ C, ∀ q ∈ st'.dispatchLog, q.1 ≠ x := by
      intro x hx q hq
      rw [plog] at hq
      exact hlog x hx q hq
    have hrun' : ∀ x ∈ C, x ∉ st'.runningTasks :=
      fun x hx hmem => hrun x hx (prun x hmem)
    rcases hbr with ⟨_, _, _, qres, _, qready⟩ | ⟨r, _, qres, _, _, qready, _⟩
    · refine ⟨fun x hx => qres ▸ hres x hx, ?_, hrun', hlog'⟩
      intro x hx
      rw [qready]
      exact hready' x hx
    · have hres' : ∀ x ∈ C, dictMem st'.results x = false := by
        intro x hx
        rw [qres]
        exact dictMem_insert_false (hres x hx) (fun hxid => hidC (hxid ▸ hx))
      refine ⟨hres', ?_, hrun', hlog'⟩
      intro x hx hmem
      rcases qready x hmem with h' | ⟨_, depIds, hdix, hall⟩
      · exact hready' x hx h'
      · exact hready st'.results x hx depIds hdix hall hres'

theorem initExecState_cycUntouched (g : StepDependencyGraph)
    (hnd : (dictKeys g.dependencies).Nodup)
    (C : List String) (hC : ∀ x ∈ C, ∃ y ∈ C, y ∈ depsOf g x) :
    CycUntouched C (initExecState g) := by
  refine ⟨fun x _ => rfl, ?_, fun x _ h => absurd h (List.not_mem_nil x),
    fun x _ e he => absurd he (List.not_mem_nil e)⟩
  intro x hx hmem
  obtain ⟨p, hp, rfl⟩ := List.mem_map.mp hmem
  have hpf := List.mem_filter.mp hp
  have hlook := lookup_of_mem_nodupKeys hnd hpf.1
  obtain ⟨y, hy, hydep⟩ := hC p.1 hx
  rw [depsOf, hlook] at hydep
  have hnil : p.2 = [] := by
    have := hpf.2
    cases hp2 : p.2 with
    | nil => rfl
    | cons a l =>
      rw [hp2] at this
      cases this
  rw [hnil] at hydep
  cases hydep

/-- The two-step workflow of the claim: `X` depends on `Y` and `Y` on `X`. -/
def cyclicSteps : List WorkflowStep := [⟨"X", ["Y"]⟩, ⟨"Y", ["X"]⟩]

/-- **C4 (counterexample).** The claim states that on a cyclic dependency
graph the scheduler "stalls forever (does not terminate)".  It does not:
for the workflow `X <-> Y`, the initial ready set is empty and no task is
in flight, so the `while ready_steps or self._running_tasks` loop exits on
its first test — already at fuel 1 (one loop iteration) `execute_parallel`
returns normally with an empty results map (no stall, and no
`CyclicDependency` error either). -/
theorem c4_counterexample :
    execute_parallel cyclicSteps (fun _ => Except.ok 0) (fun _ => []) 1
      = ExecOutcome.ok [] ⟨[], [], [], [], [], []⟩ := by
  rfl

/-- **C4 (amended).** For every step list, executor, schedule and fuel, no
member of a dependency-closed subset `C` (each of its members has a
dependency inside `C` — in particular any cyclic subset) is ever completed,
ready, or dispatched; but the scheduler does not stall forever: on the
claim's own example `X <-> Y` the loop exits normally on its first
iteration, returning an empty result map that silently omits the cyclic
steps instead of reporting a `CyclicDependency` error. -/
theorem c4_cyclic_amended :
    (∀ (steps : List WorkflowStep) (exec : String → Except String Nat)
      (schedule : Nat → List String) (fuel : Nat) (g : StepDependencyGraph)
      (C : List String),
      build_dependency_graph steps = Except.ok g →
      (∀ x ∈ C, ∃ y ∈ C, y ∈ depsOf g x) →
      ∀ x ∈ C,
        dictMem (execute_parallel steps exec schedule fuel).state.results x
          = false ∧
        x ∉ (execute_parallel steps exec schedule fuel).state.readySteps ∧
        (∀ e ∈ (execute_parallel steps exec schedule fuel).state.dispatchLog,
          e.1 ≠ x)) ∧
    execute_parallel cyclicSteps (fun _ => Except.ok 0) (fun _ => []) 1
      = ExecOutcome.ok [] ⟨[], [], [], [], [], []⟩ := by
  constructor
  · intro steps exec schedule fuel g C hbuild hC x hx
    have hwf := build_ok_GraphWF steps g hbuild
    have hinit := initExecState_cycUntouched g hwf.nodup_deps C hC
    have hres := cycUntouched_preserved g exec schedule C hC fuel 0
      (initExecState g) hinit
    have hexec : execute_parallel steps exec schedule fuel
        = execLoop g exec schedule fuel 0 (initExecState g) := by
      unfold execute_parallel
      rw [hbuild]
    rw [hexec]
    obtain ⟨h1, h2, _, h4⟩ := hres
    exact ⟨h1 x hx, h2 x hx, fun e he => h4 x hx e he⟩
  · rfl

/-- Witness for C4 (amended), at the claim's own example with
`C = ["X", "Y"]`. -/
theorem c4_witness :
    dictMem (execute_parallel cyclicSteps (fun _ => Except.ok 0)
      (fun _ => []) 5).state.results "X" = false ∧
    "X" ∉ (execute_parallel cyclicSteps (fun _ => Except.ok 0)
      (fun _ => []) 5).state.readySteps ∧
    (∀ e ∈ (execute_parallel cyclicSteps (fun _ => Except.ok 0)
      (fun _ => []) 5).state.dispatchLog, e.1 ≠ "X") :=
  c4_cyclic_amended.1 cyclicSteps (fun _ => Except.ok 0) (fun _ => []) 5 _
    ["X", "Y"] rfl (by decide) "X" (by decide)

/-! ## C1/C2: the scheduler-loop invariant -/

/-- A failing dispatch fold fails only because some ready id is missing
from the step table. -/
theorem dispatch_fold_err_reason (g : StepDependencyGraph) (l : List String) :
    ∀ acc e out, (l.foldlM (fun (st' : ExecState) step_id =>
        match g.steps.lookup step_id with
        | none => Except.error ("KeyError: " ++ step_id, st')
        | some _step =>
          Except.ok { st' with
            runningTasks := setAdd st'.runningTasks step_id,
            dispatchLog := st'.dispatchLog ++ [(step_id, dictKeys st'.results)] })
        acc) = Except.error (e, out) →
      ∃ x ∈ l, g.steps.lookup x = none := by
  induction l with
  | nil =>
    intro acc e out h
    exact Except.noConfusion h
  | cons a as ih =>
    intro acc e out h
    rw [List.foldlM_cons] at h
    cases hla : g.steps.lookup a with
    | none => exact ⟨a, List.mem_cons_self _ _, hla⟩
    | some w =>
      rw [hla] at h
      obtain ⟨x, hx, hx'⟩ := ih _ _ _ h
      exact ⟨x, List.mem_cons_of_mem _ hx, hx'⟩

/-- The inductive invariant of the scheduler loop: every ready or in-flight
id is a graph key; every ready step's full dependency set is already in
`results`; every logged dispatch happened with the step's full dependency
set among the `results` keys of that moment; no failure has been recorded;
and `completed_steps` holds exactly the keys of `results`. -/
def ExecInv (g : StepDependencyGraph) (st : ExecState) : Prop :=
  (∀ x ∈ st.readySteps, dictMem g.dependencies x = true) ∧
  (∀ x ∈ st.runningTasks, dictMem g.dependencies x = true) ∧
  (∀ x ∈ st.readySteps, ∀ d ∈ depsOf g x, dictMem st.results d = true) ∧
  (∀ q ∈ st.dispatchLog, ∀ d ∈ depsOf g q.1, d ∈ q.2) ∧
  st.failedSteps = [] ∧
  dictKeys st.completedSteps = dictKeys st.results

theorem execInv_init (g : StepDependencyGraph)
    (hnd : (dictKeys g.dependencies).Nodup) : ExecInv g (initExecState g) := by
  refine ⟨?_, fun x hx => absurd hx (List.not_mem_nil x), ?_,
    fun q hq => absurd hq (List.not_mem_nil q), rfl, rfl⟩
  · intro x hx
    obtain ⟨p, hp, rfl⟩ := List.mem_map.mp hx
    rw [← mem_dictKeys]
    exact List.mem_map.mpr ⟨p, (List.mem_filter.mp hp).1, rfl⟩
  · intro x hx d hd
    obtain ⟨p, hp, rfl⟩ := List.mem_map.mp hx
    have hpf := List.mem_filter.mp hp
    have hlook := lookup_of_mem_nodupKeys hnd hpf.1
    rw [depsOf, hlook] at hd
    have hnil : p.2 = [] := by
      have := hpf.2
      cases hp2 : p.2 with
      | nil => rfl
      | cons a l =>
        rw [hp2] at this
        cases this
    rw [hnil] at hd
    cases hd

theorem dispatchReady_ok_execInv (g : StepDependencyGraph) (st out : ExecState)
    (h : dispatchReady g st = .ok out) (hinv : ExecInv g st) :
    ExecInv g out := by
  obtain ⟨hkr, hkn, hrd, hlg, hfl, hck⟩ := hinv
  obtain ⟨e1, e2, e3, e4, e5, e6⟩ := dispatchReady_ok_spec g st out h
  refine ⟨?_, ?_, ?_, ?_, e4.trans hfl, by rw [e3, e1, hck]⟩
  · intro x hx
    rw [e2] at hx
    cases hx
  · intro x hx
    rcases e5 x hx with h' | h'
    · exact hkn x h'
    · exact hkr x h'
  · intro x hx
    rw [e2] at hx
    cases hx
  · intro q hq d hd
    rcases e6 q hq with h' | ⟨h1, h2⟩
    · exact hlg q h' d hd
    · rw [h2, mem_dictKeys]
      exact hrd q.1 h1 d hd

theorem processOne_ok_execInv (g : StepDependencyGraph) (hwf : GraphWF g)
    (exec : String → Except String Nat) (st : ExecState) (id : String)
    (out : ExecState)
    (h : processOne g exec st id = .ok out) (hinv : ExecInv g st) :
    ExecInv g out := by
  obtain ⟨hkr, hkn, hrd, hlg, hfl, hck⟩ := hinv
  obtain ⟨r, hex, hres, hcmp, hrun, hfl', hlog, hready⟩ :=
    processOne_ok_spec g exec st id out h
  have hmemeq : ∀ k, dictMem st.completedSteps k = dictMem st.results k := by
    intro k
    rw [Bool.eq_iff_iff, ← mem_dictKeys, ← mem_dictKeys, hck]
  refine ⟨?_, ?_, ?_, ?_, hfl'.trans hfl, ?_⟩
  · intro x hx
    rcases hready x hx with h' | ⟨⟨l, hl, hxl⟩, _⟩
    · exact hkr x h'
    · exact hwf.vals_dependents (id, l) (mem_of_lookup_eq_some hl) x hxl
  · intro x hx
    rw [hrun] at hx
    exact hkn x (List.mem_of_mem_filter hx)
  · intro x hx d hd
    rcases hready x hx with h' | ⟨_, depIds, hdix, hall⟩
    · rw [hres]
      exact dictMem_insert_of_mem _ _ (hrd x h' d hd)
    · rw [depsOf, hdix] at hd
      exact List.all_eq_true.mp hall d hd
  · intro q hq d hd
    rw [hlog] at hq
    exact hlg q hq d hd
  · rw [hres, hcmp, dictKeys_insert, dictKeys_insert, hmemeq id, hck]

/-- Processing the `done` set under the invariant: success preserves the
invariant; a raised error is necessarily a step-executor error, recorded as
the sole entry of `failed_steps`, with all in-flight executions cancelled,
the completed-step record intact, and the dispatch log and ready set still
satisfying the topological invariant. -/
theorem processDone_main (g : StepDependencyGraph) (hwf : GraphWF g)
    (exec : String → Except String Nat) :
    ∀ done st, done.Nodup → (∀ x ∈ done, x ∈ st.runningTasks) →
      ExecInv g st →
      (∀ st', processDone g exec done st = .ok st' → ExecInv g st') ∧
      (∀ e st', processDone g exec done st = .error (e, st') →
        (∃ id, exec id = .error e ∧ st'.failedSteps = [(id, e)]) ∧
        st'.runningTasks = [] ∧
        dictKeys st'.completedSteps = dictKeys st'.results ∧
        (∀ q ∈ st'.dispatchLog, ∀ d ∈ depsOf g q.1, d ∈ q.2) ∧
        (∀ x ∈ st'.readySteps, ∀ d ∈ depsOf g x,
          dictMem st'.results d = true)) := by
  intro done
  induction done with
  | nil =>
    intro st _ _ hinv
    refine ⟨fun st' h => ?_, fun e st' h => ?_⟩
    · cases h
      exact hinv
    · exact Except.noConfusion h
  | cons a as ih =>
    intro st hnd hsub hinv
    have hstep : ∀ (z : Except (String × ExecState) ExecState),
        processDone g exec (a :: as) st = z →
        ((processOne g exec st a) >>= fun st1 =>
          processDone g exec as st1) = z := by
      intro z hz
      unfold processDone at hz ⊢
      rw [List.foldlM_cons] at hz
      exact hz
    have hmem : a ∈ st.runningTasks := hsub a (List.mem_cons_self _ _)
    have herr_case : ∀ e st', processOne g exec st a = .error (e, st') →
        (∃ id, exec id = .error e ∧ st'.failedSteps = [(id, e)]) ∧
        st'.runningTasks = [] ∧
        dictKeys st'.completedSteps = dictKeys st'.results ∧
        (∀ q ∈ st'.dispatchLog, ∀ d ∈ depsOf g q.1, d ∈ q.2) ∧
        (∀ x ∈ st'.readySteps, ∀ d ∈ depsOf g x,
          dictMem st'.results d = true) := by
      intro e st' hpo
      obtain ⟨hkr, hkn, hrd, hlg, hfl, hck⟩ := hinv
      obtain ⟨plog, prun, hbr⟩ := processOne_err_spec g exec st a e st' hpo
      have hkey : dictMem g.dependencies a = true := hkn a hmem
      rcases hbr with ⟨qex, qfl, qrun, qres, qcmp, qrdy⟩ |
        ⟨r, _, _, _, _, _, hkerr⟩
      · refine ⟨⟨a, qex, ?_⟩, qrun, ?_, ?_, ?_⟩
        · rw [qfl, hfl]
          rfl
        · rw [qcmp, qres, hck]
        · intro q hq d hd
          rw [plog] at hq
          exact hlg q hq d hd
        · intro x hx d hd
          rw [qrdy] at hx
          rw [qres]
          exact hrd x hx d hd
      · exfalso
        rcases hkerr with hnone | ⟨l, hl, x, hxl, hxnone⟩
        · have : dictMem g.dependents a = true := by
            rw [hwf.keys_dependents a]
            exact hkey
          obtain ⟨v, hv⟩ := lookup_exists_of_dictMem this
          rw [hv] at hnone
          cases hnone
        · have : dictMem g.dependencies x = true :=
            hwf.vals_dependents (a, l) (mem_of_lookup_eq_some hl) x hxl
          obtain ⟨v, hv⟩ := lookup_exists_of_dictMem this
          rw [hv] at hxnone
          cases hxnone
    refine ⟨fun st' h => ?_, fun e st' h => ?_⟩
    · have h' := hstep _ h
      cases hpo : processOne g exec st a with
      | error pe =>
        rw [hpo] at h'
        exact Except.noConfusion h'
      | ok st1 =>
        rw [hpo] at h'
        have hinv1 := processOne_ok_execInv g hwf exec st a st1 hpo hinv
        obtain ⟨r, _, _, _, hrun, _, _, _⟩ := processOne_ok_spec g exec st a st1 hpo
        have hsub1 : ∀ x ∈ as, x ∈ st1.runningTasks := by
          intro x hx
          rw [hrun]
          refine List.mem_filter.mpr ⟨hsub x (List.mem_cons_of_mem _ hx), ?_⟩
          have : x ≠ a := fun hxa => (List.nodup_cons.mp hnd).1 (hxa ▸ hx)
          simpa using this
        exact (ih st1 (List.nodup_cons.mp hnd).2 hsub1 hinv1).1 st' h'
    · have h' := hstep _ h
      cases hpo : processOne g exec st a with
      | error pe =>
        rw [hpo] at h'
        cases h'
        exact herr_case _ _ hpo
      | ok st1 =>
        rw [hpo] at h'
        have hinv1 := processOne_ok_execInv g hwf exec st a st1 hpo hinv
        obtain ⟨r, _, _, _, hrun, _, _, _⟩ := processOne_ok_spec g exec st a st1 hpo
        have hsub1 : ∀ x ∈ as, x ∈ st1.runningTasks := by
          intro x hx
          rw [hrun]
          refine List.mem_filter.mpr ⟨hsub x (List.mem_cons_of_mem _ hx), ?_⟩
          have : x ≠ a := fun hxa => (List.nodup_cons.mp hnd).1 (hxa ▸ hx)
          simpa using this
        exact (ih st1 (List.nodup_cons.mp hnd).2 hsub1 hinv1).2 e st' h'

/-- Under the invariant, dispatching never raises: every ready id is a key
of the step table. -/
theorem dispatchReady_no_err (g : StepDependencyGraph) (hwf : GraphWF g)
    (st : ExecState)
    (hkeys : ∀ x ∈ st.readySteps, dictMem g.dependencies x = true) :
    ∀ e st', dispatchReady g st ≠ .error (e, st') := by
  intro e st' h
  unfold dispatchReady at h
  cases hf : st.readySteps.foldlM (fun (st' : ExecState) step_id =>
      match g.steps.lookup step_id with
      | none => Except.error ("KeyError: " ++ step_id, st')
      | some _step =>
        Except.ok { st' with
          runningTasks := setAdd st'.runningTasks step_id,
          dispatchLog := st'.dispatchLog ++ [(step_id, dictKeys st'.results)] })
      st with
  | ok mid =>
    rw [hf] at h
    exact Except.noConfusion h
  | error pe =>
    rw [hf] at h
    cases h
    obtain ⟨x, hx, hnone⟩ := dispatch_fold_err_reason g st.readySteps st _ _ hf
    have hk : dictMem g.steps x = true := by
      rw [hwf.keys_steps x]
      exact hkeys x hx
    obtain ⟨v, hv⟩ := lookup_exists_of_dictMem hk
    rw [hv] at hnone
    cases hnone

/-- The scheduler loop under the invariant: a normal return hands back the
`results` map of an invariant state; running out of fuel leaves an
invariant state; an escaped exception is a step-executor error, recorded as
the only entry of `failed_steps`, with every in-flight execution cancelled
and the completed-step record intact. -/
theorem execLoop_main (g : StepDependencyGraph) (hwf : GraphWF g)
    (exec : String → Except String Nat) (schedule : Nat → List String) :
    ∀ fuel t st, ExecInv g st →
      (∀ r stO, execLoop g exec schedule fuel t st = .ok r stO →
        r = stO.results ∧ ExecInv g stO) ∧
      (∀ stO, execLoop g exec schedule fuel t st = .fuelOut stO →
        ExecInv g stO) ∧
      (∀ e stE, execLoop g exec schedule fuel t st = .err e stE →
        (∃ id, exec id = .error e ∧ stE.failedSteps = [(id, e)]) ∧
        stE.runningTasks = [] ∧
        dictKeys stE.completedSteps = dictKeys stE.results ∧
        (∀ q ∈ stE.dispatchLog, ∀ d ∈ depsOf g q.1, d ∈ q.2) ∧
        (∀ x ∈ stE.readySteps, ∀ d ∈ depsOf g x,
          dictMem stE.results d = true)) := by
  intro fuel
  induction fuel with
  | zero =>
    intro t st hinv
    refine ⟨fun r stO h => ExecOutcome.noConfusion h, fun stO h => ?_,
      fun e stE h => ExecOutcome.noConfusion h⟩
    cases h
    exact hinv
  | succ n ih =>
    intro t st hinv
    rw [execLoop]
    split
    · refine ⟨fun r stO h => ?_, fun stO h => ExecOutcome.noConfusion h,
        fun e stE h => ExecOutcome.noConfusion h⟩
      cases h
      exact ⟨rfl, hinv⟩
    · split
      · next e st' heq =>
        exact absurd heq (dispatchReady_no_err g hwf st hinv.1 e st')
      · next st1 heq =>
        have hinv1 := dispatchReady_ok_execInv g st st1 heq hinv
        split
        · exact ih _ _ hinv1
        · obtain ⟨hnd, hsub⟩ := chooseDone_spec (schedule t) st1.runningTasks
          have hmain := processDone_main g hwf exec _ st1 hnd hsub hinv1
          dsimp only
          split
          · next e st2 heq2 =>
            refine ⟨fun r stO h => ExecOutcome.noConfusion h,
              fun stO h => ExecOutcome.noConfusion h, fun e' stE h => ?_⟩
            cases h
            exact hmain.2 _ _ heq2
          · next st2 heq2 =>
            exact ih _ _ (hmain.1 st2 heq2)

/-- **C1.** Topological correctness of dispatch: for every workflow step
list (with its dependency graph `g`), every executor behaviour and every
completion schedule, whenever `execute_parallel` dispatches a step
(creates its execution task — recorded in the dispatch log together with
the keys of `results` at that instant), every id in that step's dependency
set is already among the completed results; consequently the first round
(empty `results`) dispatches only steps with an empty dependency set.
Moreover a step is added to the ready set only when its full dependency
set is in `results`. -/
theorem c1_topological_correctness (steps : List WorkflowStep)
    (exec : String → Except String Nat) (schedule : Nat → List String)
    (fuel : Nat) (g : StepDependencyGraph)
    (hbuild : build_dependency_graph steps = Except.ok g) :
    (∀ q ∈ (execute_parallel steps exec schedule fuel).state.dispatchLog,
      ∀ d ∈ depsOf g q.1, d ∈ q.2) ∧
    (∀ x ∈ (execute_parallel steps exec schedule fuel).state.readySteps,
      ∀ d ∈ depsOf g x,
        dictMem (execute_parallel steps exec schedule fuel).state.results d
          = true) := by
  have hwf := build_ok_GraphWF steps g hbuild
  have hexec : execute_parallel steps exec schedule fuel
      = execLoop g exec schedule fuel 0 (initExecState g) := by
    unfold execute_parallel
    rw [hbuild]
  have hmain := execLoop_main g hwf exec schedule fuel 0 (initExecState g)
    (execInv_init g hwf.nodup_deps)
  rw [hexec]
  cases hout : execLoop g exec schedule fuel 0 (initExecState g) with
  | ok r stO =>
    obtain ⟨_, hinv⟩ := hmain.1 r stO hout
    exact ⟨hinv.2.2.2.1, hinv.2.2.1⟩
  | err e stE =>
    obtain ⟨_, _, _, hlg, hrd⟩ := hmain.2.2 e stE hout
    exact ⟨hlg, hrd⟩
  | fuelOut stO =>
    have hinv := hmain.2.1 stO hout
    exact ⟨hinv.2.2.2.1, hinv.2.2.1⟩

/-- The diamond workflow A; B, C after A; D after B and C. -/
def diamondSteps : List WorkflowStep :=
  [⟨"A", []⟩, ⟨"B", ["A"]⟩, ⟨"C", ["A"]⟩, ⟨"D", ["B", "C"]⟩]

/-- Extract the graph from a successful build (test harness helper). -/
def forceGraph (e : Except String StepDependencyGraph) : StepDependencyGraph :=
  match e with
  | .ok g => g
  | .error _ => ⟨[], [], []⟩

/-- The dependency graph of the diamond workflow. -/
def diamondGraph : StepDependencyGraph :=
  forceGraph (build_dependency_graph diamondSteps)

/-- Witness for C1: the diamond workflow, all steps succeeding. -/
theorem c1_witness :
    (∀ q ∈ (execute_parallel diamondSteps (fun _ => Except.ok 7)
        (fun _ => []) 10).state.dispatchLog,
      ∀ d ∈ depsOf diamondGraph q.1, d ∈ q.2) ∧
    (∀ x ∈ (execute_parallel diamondSteps (fun _ => Except.ok 7)
        (fun _ => []) 10).state.readySteps,
      ∀ d ∈ depsOf diamondGraph x,
        dictMem (execute_parallel diamondSteps (fun _ => Except.ok 7)
          (fun _ => []) 10).state.results d = true) :=
  c1_topological_correctness diamondSteps (fun _ => Except.ok 7)
    (fun _ => []) 10 diamondGraph (by rfl)

/-- **C2.** Fail-fast on first failure: for every workflow whose graph
builds, if `execute_parallel` propagates an error then that error was
raised by some dispatched step's execution, `{failed_at, error}` for
exactly that step is recorded in `WorkflowState.failed_steps`, every
still-running execution has been cancelled (`_running_tasks` is empty),
and the steps completed before the failure remain recorded in
`WorkflowState.completed_steps` (its key set still mirrors `results`);
the caller gets the error, not a partial result map.  Conversely any
outcome that is not the propagated error — a normal return (whose value is
the `results` map) or a still-spinning loop — carries no recorded failure,
so no step was ever dispatched after a failure. -/
theorem c2_fail_fast (steps : List WorkflowStep)
    (exec : String → Except String Nat) (schedule : Nat → List String)
    (fuel : Nat) (g : StepDependencyGraph)
    (hbuild : build_dependency_graph steps = Except.ok g) :
    (∀ e stE, execute_parallel steps exec schedule fuel
        = ExecOutcome.err e stE →
      (∃ id, exec id = Except.error e ∧ stE.failedSteps = [(id, e)]) ∧
      stE.runningTasks = [] ∧
      dictKeys stE.completedSteps = dictKeys stE.results) ∧
    (∀ r stO, execute_parallel steps exec schedule fuel
        = ExecOutcome.ok r stO →
      r = stO.results ∧ stO.failedSteps = []) ∧
    (∀ stO, execute_parallel steps exec schedule fuel
        = ExecOutcome.fuelOut stO → stO.failedSteps = []) := by
  have hwf := build_ok_GraphWF steps g hbuild
  have hexec : execute_parallel steps exec schedule fuel
      = execLoop g exec schedule fuel 0 (initExecState g) := by
    unfold execute_parallel
    rw [hbuild]
  have hmain := execLoop_main g hwf exec schedule fuel 0 (initExecState g)
    (execInv_init g hwf.nodup_deps)
  rw [hexec]
  refine ⟨fun e stE h => ?_, fun r stO h => ?_, fun stO h => ?_⟩
  · obtain ⟨hid, hrun, hck, _, _⟩ := hmain.2.2 e stE h
    exact ⟨hid, hrun, hck⟩
  · obtain ⟨hr, hinv⟩ := hmain.1 r stO h
    exact ⟨hr, hinv.2.2.2.2.1⟩
  · exact (hmain.2.1 stO h).2.2.2.2.1

/-- Witness for C2: the diamond workflow where step C's execution raises. -/
theorem c2_witness :
    (∀ e stE, execute_parallel diamondSteps
        (fun s => if s = "C" then Except.error "boom" else Except.ok 7)
        (fun _ => []) 10 = ExecOutcome.err e stE →
      (∃ id, (fun s => if s = "C" then Except.error "boom" else Except.ok 7)
          id = Except.error e ∧ stE.failedSteps = [(id, e)]) ∧
      stE.runningTasks = [] ∧
      dictKeys stE.completedSteps = dictKeys stE.results) ∧
    (∀ r stO, execute_parallel diamondSteps
        (fun s => if s = "C" then Except.error "boom" else Except.ok 7)
        (fun _ => []) 10 = ExecOutcome.ok r stO →
      r = stO.results ∧ stO.failedSteps = []) ∧
    (∀ stO, execute_parallel diamondSteps
        (fun s => if s = "C" then Except.error "boom" else Except.ok 7)
        (fun _ => []) 10 = ExecOutcome.fuelOut stO → stO.failedSteps = []) :=
  c2_fail_fast diamondSteps
    (fun s => if s = "C" then Except.error "boom" else Except.ok 7)
    (fun _ => []) 10 diamondGraph (by rfl)

/-! ## C3: the concurrency bound -/

/-- The semaphore-protocol invariant: the internal counter plus the number
of executions inside `execute_step` always totals `max_parallel`. -/
theorem semStep_invariant (max_parallel : Nat) (s s' : SemState)
    (h : SemStep s s') (hinv : s.value + s.executing.length = max_parallel) :
    s'.value + s'.executing.length = max_parallel := by
  cases h with
  | submit id => exact hinv
  | acquire id rest hw hv =>
    dsimp only
    rw [List.length_append, List.length_singleton]
    omega
  | release id hm =>
    dsimp only
    rw [List.length_erase_of_mem hm]
    have hpos : 0 < s.executing.length := List.length_pos.mpr
      (fun hnil => by rw [hnil] at hm; cases hm)
    omega

/-- **C3.** Concurrency bound: along every path of semaphore events
reachable from the executor's initial state (counter `max_parallel`,
nothing executing), the number of step executions simultaneously inside
`executor.execute_step` (i.e. past the `async with self._semaphore`) never
exceeds `max_parallel`; and the `__init__` default for `max_parallel`
is 10.  Created tasks beyond the cap sit in the `waiting` list until a
release frees a slot (the `acquire` rule requires a positive counter). -/
theorem c3_concurrency_bound (max_parallel : Nat) (s : SemState)
    (h : SemReachable max_parallel s) :
    s.executing.length ≤ max_parallel ∧ default_max_parallel = 10 := by
  have hinv : s.value + s.executing.length = max_parallel := by
    induction h with
    | refl => rfl
    | tail hr hstep ih => exact semStep_invariant max_parallel _ _ hstep ih
  exact ⟨by omega, rfl⟩

/-- Witness for C3: a concrete reachable state with two executions
admitted under the default bound of 10. -/
theorem c3_witness :
    (⟨8, ["s1", "s2"], []⟩ : SemState).executing.length ≤ 10 ∧
      default_max_parallel = 10 :=
  c3_concurrency_bound 10 ⟨8, ["s1", "s2"], []⟩
    (Relation.ReflTransGen.tail
      (Relation.ReflTransGen.tail
        (Relation.ReflTransGen.tail
          (Relation.ReflTransGen.tail
            Relation.ReflTransGen.refl
            (SemStep.submit (initSemState 10) "s1"))
          (SemStep.acquire ⟨10, [], ["s1"]⟩ "s1" [] rfl (by decide)))
        (SemStep.submit ⟨9, ["s1"], []⟩ "s2"))
      (SemStep.acquire ⟨9, ["s1"], ["s2"]⟩ "s2" [] rfl (by decide)))

/-! ## Lookup/insert lemmas for the task-manager proofs -/

theorem lookup_append_none {α : Type} (d l : Dict α) (k : String)
    (h : d.lookup k = none) : (d ++ l).lookup k = l.lookup k := by
  induction d with
  | nil => rfl
  | cons p ps ih =>
    obtain ⟨pk, pv⟩ := p
    cases hbeq : (k == pk) with
    | true =>
      simp only [List.lookup, hbeq] at h
      cases h
    | false =>
      rw [List.cons_append]
      simp only [List.lookup, hbeq] at h ⊢
      exact ih h

theorem lookup_append_some {α : Type} (d l : Dict α) (k : String) (v : α)
    (h : d.lookup k = some v) : (d ++ l).lookup k = some v := by
  induction d with
  | nil => cases h
  | cons p ps ih =>
    obtain ⟨pk, pv⟩ := p
    cases hbeq : (k == pk) with
    | true =>
      simp only [List.lookup, hbeq] at h ⊢
      exact h
    | false =>
      rw [List.cons_append]
      simp only [List.lookup, hbeq] at h ⊢
      exact ih h

theorem lookup_map_overwrite {α : Type} (d : Dict α) (k k' : String) (v : α)
    (hne : k' ≠ k) :
    (d.map (fun p => if p.1 = k then (k, v) else p)).lookup k' = d.lookup k' := by
  induction d with
  | nil => rfl
  | cons p ps ih =>
    rw [List.map_cons]
    by_cases hpk : p.1 = k
    · rw [if_pos hpk]
      obtain ⟨pk, pv⟩ := p
      have h1 : (k' == k) = false := beq_eq_false_iff_ne.mpr hne
      have h2 : (k' == pk) = false := by
        dsimp only at hpk
        rw [hpk]
        exact h1
      simp only [List.lookup, h1, h2]
      exact ih
    · rw [if_neg hpk]
      obtain ⟨pk, pv⟩ := p
      cases hbeq : (k' == pk) with
      | true => simp [List.lookup, hbeq]
      | false =>
        simp only [List.lookup, hbeq]
        exact ih

theorem lookup_dictInsert_self {α : Type} (d : Dict α) (k : String) (v : α) :
    (dictInsert d k v).lookup k = some v := by
  unfold dictInsert
  by_cases hm : (d.any fun p => decide (p.1 = k)) = true
  · rw [if_pos hm]
    induction d with
    | nil => cases hm
    | cons p ps ih =>
      rw [List.map_cons]
      by_cases hpk : p.1 = k
      · rw [if_pos hpk]
        have h1 : (k == k) = true := beq_self_eq_true k
        simp [List.lookup, h1]
      · rw [if_neg hpk]
        obtain ⟨pk, pv⟩ := p
        have h2 : (k == pk) = false := by
          refine beq_eq_false_iff_ne.mpr (fun he => hpk ?_)
          dsimp only
          exact he.symm
        simp only [List.lookup, h2]
        apply ih
        simp only [List.any_cons, Bool.or_eq_true, decide_eq_true_eq] at hm
        rcases hm with h' | h'
        · exact absurd h' hpk
        · exact h'
  · rw [if_neg hm]
    have hnone : d.lookup k = none := by
      apply lookup_eq_none_of_not_dictMem
      cases hdm : dictMem d k with
      | false => rfl
      | true => exact absurd hdm hm
    rw [lookup_append_none d _ k hnone]
    simp [List.lookup]

theorem lookup_dictInsert_other {α : Type} (d : Dict α) (k k' : String)
    (v : α) (hne : k' ≠ k) :
    (dictInsert d k v).lookup k' = d.lookup k' := by
  unfold dictInsert
  by_cases hm : (d.any fun p => decide (p.1 = k)) = true
  · rw [if_pos hm]
    exact lookup_map_overwrite d k k' v hne
  · rw [if_neg hm]
    cases hl : d.lookup k' with
    | some w => exact lookup_append_some d _ k' w hl
    | none =>
      rw [lookup_append_none d _ k' hl]
      have h1 : (k' == k) = false := beq_eq_false_iff_ne.mpr hne
      simp [List.lookup, h1]

/-! ## C5: the retry bound -/

/-- **C5.** Retry bound: when `retries >= max_retries`, `retry_task` raises
the retry-limit `ValueError` (before any mutation — the task is left
unchanged); otherwise it increments `retries`, resets `started_at` and
`completed_at`, returns the state to `PENDING`, sleeps `retry_delay` (a
pure delay) and calls `start_task` on the updated store.  Whenever the
retry succeeds, the task's new `retries` count is the old count plus one
and never exceeds `max_retries` — so a task with `max_retries = N` is
attempted at most `N + 1` times in total before the limit error
surfaces. -/
theorem c5_retry_bound (m : TaskManager) (id : String) (now : Nat)
    (task : TaskContext) (h : m.tasks.lookup id = some task) :
    (task.max_retries ≤ task.retries →
      TaskManager.retry_task m id now
        = Except.error ("Task " ++ id ++ " exceeded retry limit")) ∧
    (task.retries < task.max_retries →
      TaskManager.retry_task m id now
        = TaskManager.start_task
            ⟨dictInsert m.tasks id
              { task with
                retries := task.retries + 1
                state := .pending
                started_at := none
                completed_at := none }⟩ id now) ∧
    (∀ m', TaskManager.retry_task m id now = Except.ok m' →
      ∃ t', m'.tasks.lookup id = some t' ∧
        t'.state = TaskState.running ∧
        t'.retries = task.retries + 1 ∧
        t'.retries ≤ task.max_retries) := by
  have hget : TaskManager.get_task m id = some task := h
  refine ⟨?_, ?_, ?_⟩
  · intro hle
    unfold TaskManager.retry_task
    rw [hget]
    dsimp only
    rw [if_pos hle]
  · intro hlt
    unfold TaskManager.retry_task
    rw [hget]
    dsimp only
    rw [if_neg (by omega)]
  · intro m' hok
    unfold TaskManager.retry_task at hok
    rw [hget] at hok
    dsimp only at hok
    by_cases hle : task.max_retries ≤ task.retries
    · rw [if_pos hle] at hok
      exact Except.noConfusion hok
    · rw [if_neg hle] at hok
      unfold TaskManager.start_task at hok
      rw [lookup_dictInsert_self] at hok
      dsimp only at hok
      rw [if_neg (by intro hh; exact hh rfl)] at hok
      by_cases hdeps : (task.dependencies.all fun dep_id =>
          match List.lookup dep_id (dictInsert m.tasks id
            { task with
              retries := task.retries + 1
              state := .pending
              started_at := none
              completed_at := none }) with
          | none => false
          | some dep => decide (dep.state = TaskState.completed)) = true
      · rw [if_pos hdeps] at hok
        cases hok
        refine ⟨_, lookup_dictInsert_self _ _ _, rfl, rfl, by dsimp only; omega⟩
      · rw [if_neg hdeps] at hok
        exact Except.noConfusion hok

/-- A concrete store with one failed task that has retries left. -/
def retryMgr : TaskManager :=
  ⟨[("t1", ⟨"agent", "t1", .failed, 0, some 1, some 2, none, [], [],
    false, 0, 3, 1, none⟩)]⟩

/-- Witness for C5 at a concrete one-task store. -/
theorem c5_witness :
    ((⟨"agent", "t1", .failed, 0, some 1, some 2, none, [], [],
        false, 0, 3, 1, none⟩ : TaskContext).max_retries
        ≤ (⟨"agent", "t1", .failed, 0, some 1, some 2, none, [], [],
        false, 0, 3, 1, none⟩ : TaskContext).retries →
      TaskManager.retry_task retryMgr "t1" 7
        = Except.error ("Task " ++ "t1" ++ " exceeded retry limit")) ∧
    ((⟨"agent", "t1", .failed, 0, some 1, some 2, none, [], [],
        false, 0, 3, 1, none⟩ : TaskContext).retries
        < (⟨"agent", "t1", .failed, 0, some 1, some 2, none, [], [],
        false, 0, 3, 1, none⟩ : TaskContext).max_retries →
      TaskManager.retry_task retryMgr "t1" 7
        = TaskManager.start_task
            ⟨dictInsert retryMgr.tasks "t1"
              { (⟨"agent", "t1", .failed, 0, some 1, some 2, none, [], [],
                  false, 0, 3, 1, none⟩ : TaskContext) with
                retries := (⟨"agent", "t1", .failed, 0, some 1, some 2, none,
                  [], [], false, 0, 3, 1, none⟩ : TaskContext).retries + 1
                state := .pending
                started_at := none
                completed_at := none }⟩ "t1" 7) ∧
    (∀ m', TaskManager.retry_task retryMgr "t1" 7 = Except.ok m' →
      ∃ t', m'.tasks.lookup "t1" = some t' ∧
        t'.state = TaskState.running ∧
        t'.retries = (⟨"agent", "t1", .failed, 0, some 1, some 2, none, [], [],
          false, 0, 3, 1, none⟩ : TaskContext).retries + 1 ∧
        t'.retries ≤ (⟨"agent", "t1", .failed, 0, some 1, some 2, none, [], [],
          false, 0, 3, 1, none⟩ : TaskContext).max_retries) :=
  c5_retry_bound retryMgr "t1" 7
    ⟨"agent", "t1", .failed, 0, some 1, some 2, none, [], [], false, 0, 3, 1,
      none⟩ (by rfl)

/-! ## C7: the task state machine -/

/-- A freshly created task, still `PENDING`. -/
def pendingTask : TaskContext :=
  ⟨"agent", "t1", .pending, 0, none, none, none, [], [], false, 0, 3, 1, none⟩

/-- A store holding only that pending task. -/
def oneTaskMgr : TaskManager := ⟨[("t1", pendingTask)]⟩

/-- **C7 (counterexample).** The claim states that no `TaskManager` method
moves a task from `Pending` directly to `Completed`.  `complete_task`
does exactly that: it sets `COMPLETED` without checking the current state,
so calling it on a still-pending task yields a Pending -> Completed
transition. -/
theorem c7_counterexample :
    pendingTask.state = TaskState.pending ∧
    TaskManager.complete_task oneTaskMgr "t1" [] 5
      = Except.ok ⟨[("t1",
          { pendingTask with
            state := .completed
            completed_at := some 5 })]⟩ := by
  constructor
  · rfl
  · rfl

/-- **C7 (amended).** Only `start_task` enforces an edge of the machine:
it succeeds only from `PENDING` (moving the task to `RUNNING`).
`complete_task`, `fail_task` and the marking part of `cancel_task` perform
their transitions unconditionally from any current state — in particular
`complete_task` can move a task from `Pending` directly to `Completed`,
and any of them can move a task out of a terminal state.  `retry_task`
resets any task with remaining retries to `PENDING` (not only
`Failed`/`TimedOut` ones) and re-enters `start_task`. -/
theorem c7_state_machine_amended (m : TaskManager) (id : String) (now : Nat)
    (task : TaskContext) (h : m.tasks.lookup id = some task) :
    (∀ m', TaskManager.start_task m id now = Except.ok m' →
      task.state = TaskState.pending ∧
      m' = ⟨dictInsert m.tasks id
        { task with state := .running, started_at := some now }⟩) ∧
    (TaskManager.complete_task m id [] now
      = Except.ok ⟨dictInsert m.tasks id
          { task with state := .completed, completed_at := some now }⟩) ∧
    (TaskManager.fail_task m id none now
      = Except.ok ⟨dictInsert m.tasks id
          { task with state := .failed, completed_at := some now }⟩) ∧
    (TaskManager.mark_cancelled m id now
      = some ⟨dictInsert m.tasks id
          { task with
            state := .cancelled
            completed_at := some now
            token_cancelled := true }⟩) ∧
    (task.retries < task.max_retries →
      TaskManager.retry_task m id now
        = TaskManager.start_task
            ⟨dictInsert m.tasks id
              { task with
                retries := task.retries + 1
                state := .pending
                started_at := none
                completed_at := none }⟩ id now) := by
  refine ⟨?_, ?_, ?_, ?_, ?_⟩
  · intro m' hok
    unfold TaskManager.start_task at hok
    rw [h] at hok
    dsimp only at hok
    by_cases hst : task.state = TaskState.pending
    · refine ⟨hst, ?_⟩
      rw [if_neg (by intro hne; exact hne hst)] at hok
      by_cases hdeps : (task.dependencies.all fun dep_id =>
          match List.lookup dep_id m.tasks with
          | none => false
          | some dep => decide (dep.state = TaskState.completed)) = true
      · rw [if_pos hdeps] at hok
        cases hok
        rfl
      · rw [if_neg hdeps] at hok
        exact Except.noConfusion hok
    · rw [if_pos hst] at hok
      exact Except.noConfusion hok
  · unfold TaskManager.complete_task
    rw [h]
    rfl
  · unfold TaskManager.fail_task
    rw [h]
  · unfold TaskManager.mark_cancelled
    rw [h]
  · intro hlt
    unfold TaskManager.retry_task
    rw [show TaskManager.get_task m id = some task from h]
    dsimp only
    rw [if_neg (by omega)]

/-- Witness for C7 (amended) at the one-task store. -/
theorem c7_witness :
    (∀ m', TaskManager.start_task oneTaskMgr "t1" 5 = Except.ok m' →
      pendingTask.state = TaskState.pending ∧
      m' = ⟨dictInsert oneTaskMgr.tasks "t1"
        { pendingTask with state := .running, started_at := some 5 }⟩) ∧
    (TaskManager.complete_task oneTaskMgr "t1" [] 5
      = Except.ok ⟨dictInsert oneTaskMgr.tasks "t1"
          { pendingTask with state := .completed, completed_at := some 5 }⟩) ∧
    (TaskManager.fail_task oneTaskMgr "t1" none 5
      = Except.ok ⟨dictInsert oneTaskMgr.tasks "t1"
          { pendingTask with state := .failed, completed_at := some 5 }⟩) ∧
    (TaskManager.mark_cancelled oneTaskMgr "t1" 5
      = some ⟨dictInsert oneTaskMgr.tasks "t1"
          { pendingTask with
            state := .cancelled
            completed_at := some 5
            token_cancelled := true }⟩) ∧
    (pendingTask.retries < pendingTask.max_retries →
      TaskManager.retry_task oneTaskMgr "t1" 5
        = TaskManager.start_task
            ⟨dictInsert oneTaskMgr.tasks "t1"
              { pendingTask with
                retries := pendingTask.retries + 1
                state := .pending
                started_at := none
                completed_at := none }⟩ "t1" 5) :=
  c7_state_machine_amended oneTaskMgr "t1" 5 pendingTask (by rfl)

/-! ## C8: `resume_workflow` -/

/-- `resume_workflow` raises `ValueError` for every workflow id with a
stored non-completed state, because `_get_workflow_definition` is an
unimplemented placeholder returning `None`; the step-filtering code after
it is unreachable. -/
theorem resume_workflow_not_found
    (execW : WorkflowDefinition → Dict String → Except String (Dict Nat))
    (store : Dict WorkflowState) (workflow_id : String) (st : WorkflowState)
    (hload : store.lookup workflow_id = some st)
    (hnc : st.status ≠ "completed") :
    resume_workflow execW store workflow_id
      = Except.error ("Workflow " ++ workflow_id ++ " not found") := by
  unfold resume_workflow
  rw [hload]
  dsimp only
  rw [if_neg hnc]
  rfl

/-- A persisted state of a failed run with one completed step. -/
def failedRunState : WorkflowState := ⟨"wf1", "failed", [("a", 1)], []⟩

/-- **C8.** The claim says `resume_workflow` reloads the stored state,
filters out the completed steps and re-invokes execution on the remainder.
The code cannot do this for any input: `_get_workflow_definition` — a
self-described "placeholder for actual logic" — returns `None` for every
workflow id, so for every stored non-completed state (here: a failed run
of `"wf1"` with step `"a"` completed) `resume_workflow` raises
`ValueError("Workflow ... not found")` instead; the filtering and
re-execution code is unreachable. -/
theorem c8_resume_placeholder_bug :
    resume_workflow (fun _ _ => Except.ok []) [("wf1", failedRunState)] "wf1"
      = Except.error "Workflow wf1 not found" :=
  resume_workflow_not_found (fun _ _ => Except.ok [])
    [("wf1", failedRunState)] "wf1" failedRunState (by rfl) (by decide)

/-! ## C6/C10: the cancellation cascade

The cascade's behaviour depends only on each task's `task_id`,
`dependencies` and the store's key structure; the predicates below capture
them.  `ConsistentTM` (every entry is keyed by its task's `task_id`) and
`NodupKeysTM` are the store invariants every `TaskManager` method
maintains (`_tasks[task.task_id] = task`). -/

/-- The `_tasks` dict is keyed by each task's own id. -/
def ConsistentTM (m : TaskManager) : Prop := ∀ p ∈ m.tasks, p.1 = p.2.task_id

/-- The `_tasks` dict has no duplicate keys. -/
def NodupKeysTM (m : TaskManager) : Prop := (dictKeys m.tasks).Nodup

/-- `task_id` is a registered key. -/
def IsKey (m : TaskManager) (k : String) : Prop :=
  ∃ t, m.tasks.lookup k = some t

/-- Task `b` directly depends on task `a`: `a` is listed in `b`'s
`dependencies` (so `cancel_task a` cascades into `b`). -/
def DirectDep (m : TaskManager) (a b : String) : Prop :=
  ∃ task, m.tasks.lookup b = some task ∧ a ∈ task.dependencies

/-- `b` is transitively dependent on `a`. -/
inductive TransDep (m : TaskManager) : String → String → Prop
  | single (a b : String) : DirectDep m a b → TransDep m a b
  | head (a b c : String) : DirectDep m a b → TransDep m b c → TransDep m a c

theorem transDep_trans {m : TaskManager} {a b c : String}
    (h1 : TransDep m a b) (h2 : TransDep m b c) : TransDep m a c := by
  induction h1 with
  | single a b hd => exact TransDep.head a b c hd h2
  | head a x b hd _ ih => exact TransDep.head a x c hd (ih h2)

/-- Two stores with the same keys and, per key, the same `task_id` and
`dependencies` (the cascade never changes these). -/
def SameStructure (m m' : TaskManager) : Prop :=
  ∀ k, (m.tasks.lookup k).map (fun t => (t.task_id, t.dependencies))
      = (m'.tasks.lookup k).map (fun t => (t.task_id, t.dependencies))

theorem SameStructure.refl (m : TaskManager) : SameStructure m m :=
  fun _ => rfl

theorem sameStructure_trans {m1 m2 m3 : TaskManager}
    (h1 : SameStructure m1 m2) (h2 : SameStructure m2 m3) :
    SameStructure m1 m3 :=
  fun k => (h1 k).trans (h2 k)

theorem SameStructure.symm {m1 m2 : TaskManager} (h : SameStructure m1 m2) :
    SameStructure m2 m1 :=
  fun k => (h k).symm

theorem SameStructure.isKey {m m' : TaskManager} (h : SameStructure m m')
    {k : String} (hk : IsKey m k) : IsKey m' k := by
  obtain ⟨t, ht⟩ := hk
  have := h k
  rw [ht] at this
  cases hl : m'.tasks.lookup k with
  | none =>
    rw [hl] at this
    cases this
  | some t' => exact ⟨t', hl⟩

theorem SameStructure.directDep {m m' : TaskManager} (h : SameStructure m m')
    {a b : String} (hd : DirectDep m a b) : DirectDep m' a b := by
  obtain ⟨task, ht, hmem⟩ := hd
  have hk := h b
  rw [ht] at hk
  cases hl : m'.tasks.lookup b with
  | none =>
    rw [hl] at hk
    cases hk
  | some t' =>
    rw [hl] at hk
    refine ⟨t', hl, ?_⟩
    have : task.dependencies = t'.dependencies := by
      have := congrArg (fun o => Option.map Prod.snd o) hk
      simpa using this
    rw [← this]
    exact hmem

theorem SameStructure.transDep {m m' : TaskManager} (h : SameStructure m m')
    {a b : String} (hd : TransDep m a b) : TransDep m' a b := by
  induction hd with
  | single a b hd1 => exact TransDep.single a b (h.directDep hd1)
  | head a x b hd1 _ ih => exact TransDep.head a x b (h.directDep hd1) ih

/-- Characterisation of the flat scan `get_dependent_tasks`: it returns
exactly the direct dependents. -/
theorem mem_get_dependent_tasks_iff (m : TaskManager)
    (hc : ConsistentTM m) (hnk : NodupKeysTM m) (id d : String) :
    d ∈ m.get_dependent_tasks id ↔ DirectDep m id d := by
  unfold TaskManager.get_dependent_tasks
  constructor
  · intro hd
    obtain ⟨p, hp, hpd⟩ := List.mem_map.mp hd
    have hpf := List.mem_filter.mp hp
    have hlook := lookup_of_mem_nodupKeys hnk hpf.1
    have hkey := hc p hpf.1
    refine ⟨p.2, ?_, by simpa using hpf.2⟩
    rw [← hpd, ← hkey]
    exact hlook
  · rintro ⟨task, hl, hmem⟩
    have hpair := mem_of_lookup_eq_some hl
    refine List.mem_map.mpr ⟨(d, task), List.mem_filter.mpr ⟨hpair, ?_⟩, ?_⟩
    · simpa using hmem
    · exact (hc (d, task) hpair).symm

theorem mark_cancelled_spec (m : TaskManager) (id : String) (now : Nat)
    (m1 : TaskManager) (hc : ConsistentTM m) (hnk : NodupKeysTM m)
    (h : TaskManager.mark_cancelled m id now = some m1) :
    SameStructure m m1 ∧ ConsistentTM m1 ∧ NodupKeysTM m1 ∧
    (∀ k t, m1.tasks.lookup k = some t →
      m.tasks.lookup k = some t ∨
        (t.state = .cancelled ∧ t.token_cancelled = true)) ∧
    (∃ t, m1.tasks.lookup id = some t ∧ t.state = .cancelled ∧
      t.token_cancelled = true) := by
  unfold TaskManager.mark_cancelled at h
  cases hl : m.tasks.lookup id with
  | none =>
    rw [hl] at h
    exact Option.noConfusion h
  | some task =>
    rw [hl] at h
    cases h
    have hid : task.task_id = id := (hc _ (mem_of_lookup_eq_some hl)).symm
    refine ⟨?_, ?_, nodup_dictKeys_insert _ _ hnk, ?_, ?_⟩
    · intro k
      by_cases hk : k = id
      · subst hk
        rw [hl]
        show _ = (List.lookup k (dictInsert m.tasks k _)).map _
        rw [lookup_dictInsert_self]
        rfl
      · show _ = (List.lookup k (dictInsert m.tasks id _)).map _
        rw [lookup_dictInsert_other m.tasks id k _ hk]
    · intro p hp
      rcases mem_of_mem_dictInsert hp with hp' | rfl
      · exact hc p hp'
      · exact hid.symm
    · intro k t ht
      by_cases hk : k = id
      · subst hk
        rw [lookup_dictInsert_self] at ht
        cases ht
        exact Or.inr ⟨rfl, rfl⟩
      · rw [lookup_dictInsert_other m.tasks id k _ hk] at ht
        exact Or.inl ht
    · exact ⟨_, lookup_dictInsert_self _ _ _, rfl, rfl⟩

theorem cancelled_persists {mi mf : TaskManager} (hss : SameStructure mi mf)
    (htc : ∀ k t, mf.tasks.lookup k = some t →
      mi.tasks.lookup k = some t ∨
        (t.state = .cancelled ∧ t.token_cancelled = true))
    {c : String} {t : TaskContext} (hc : mi.tasks.lookup c = some t)
    (hst : t.state = .cancelled) :
    ∃ t', mf.tasks.lookup c = some t' ∧ t'.state = .cancelled := by
  obtain ⟨t', ht'⟩ := hss.isKey ⟨t, hc⟩
  rcases htc c t' ht' with h | h
  · have heq := hc.symm.trans h
    injection heq with heq2
    subst heq2
    exact ⟨t, ht', hst⟩
  · exact ⟨t', ht', h.1⟩

theorem cancelled_token_persists {mi mf : TaskManager}
    (hss : SameStructure mi mf)
    (htc : ∀ k t, mf.tasks.lookup k = some t →
      mi.tasks.lookup k = some t ∨
        (t.state = .cancelled ∧ t.token_cancelled = true))
    {c : String} {t : TaskContext} (hc : mi.tasks.lookup c = some t)
    (hst : t.state = .cancelled) (htk : t.token_cancelled = true) :
    ∃ t', mf.tasks.lookup c = some t' ∧ t'.state = .cancelled ∧
      t'.token_cancelled = true := by
  obtain ⟨t', ht'⟩ := hss.isKey ⟨t, hc⟩
  rcases htc c t' ht' with h | h
  · have heq := hc.symm.trans h
    injection heq with heq2
    subst heq2
    exact ⟨t, ht', hst, htk⟩
  · exact ⟨t', ht', h.1, h.2⟩

/-- Everything `cancel_task` guarantees when it returns normally. -/
def CancelTaskOK (fuel : Nat) : Prop :=
  ∀ m id now m', ConsistentTM m → NodupKeysTM m →
    TaskManager.cancel_task fuel m id now = some (Except.ok m') →
    SameStructure m m' ∧ ConsistentTM m' ∧ NodupKeysTM m' ∧
    (∀ k t, m'.tasks.lookup k = some t →
      m.tasks.lookup k = some t ∨
        (t.state = .cancelled ∧ t.token_cancelled = true)) ∧
    (∃ t, m'.tasks.lookup id = some t ∧ t.state = .cancelled ∧
      t.token_cancelled = true) ∧
    (∀ c, TransDep m id c →
      ∃ t, m'.tasks.lookup c = some t ∧ t.state = .cancelled)

/-- The corresponding guarantee for the `cancel_dependent_tasks` loop. -/
def CancelGoOK (fuel : Nat) : Prop :=
  ∀ l m now m', ConsistentTM m → NodupKeysTM m →
    cancelGo (fun mm d => TaskManager.cancel_task fuel mm d now) l m
      = some (Except.ok m') →
    SameStructure m m' ∧ ConsistentTM m' ∧ NodupKeysTM m' ∧
    (∀ k t, m'.tasks.lookup k = some t →
      m.tasks.lookup k = some t ∨
        (t.state = .cancelled ∧ t.token_cancelled = true)) ∧
    (∀ d ∈ l,
      (∃ t, m'.tasks.lookup d = some t ∧ t.state = .cancelled ∧
        t.token_cancelled = true) ∧
      (∀ c, TransDep m d c →
        ∃ t, m'.tasks.lookup c = some t ∧ t.state = .cancelled))

theorem cancelGo_ok_of_task (fuel : Nat) (ht : CancelTaskOK fuel) :
    CancelGoOK fuel := by
  intro l
  induction l with
  | nil =>
    intro m now m' hc hnk h
    unfold cancelGo at h
    simp only [Option.some.injEq, Except.ok.injEq] at h
    subst h
    exact ⟨SameStructure.refl m, hc, hnk, fun k t ht' => Or.inl ht',
      fun d hd => absurd hd (List.not_mem_nil d)⟩
  | cons a as ih =>
    intro m now m' hc hnk h
    unfold cancelGo at h
    cases hca : TaskManager.cancel_task fuel m a now with
    | none =>
      rw [hca] at h
      exact Option.noConfusion h
    | some r =>
      cases r with
      | error e =>
        rw [hca] at h
        simp at h
      | ok m2 =>
        rw [hca] at h
        obtain ⟨ss2, hc2, hnk2, htc2, hroot2, htd2⟩ :=
          ht m a now m2 hc hnk hca
        obtain ⟨ssf, hcf, hnkf, htcf, hdf⟩ := ih m2 now m' hc2 hnk2 h
        have htc_comp : ∀ k t, m'.tasks.lookup k = some t →
            m.tasks.lookup k = some t ∨
              (t.state = .cancelled ∧ t.token_cancelled = true) := by
          intro k t ht'
          rcases htcf k t ht' with h' | h'
          · exact htc2 k t h'
          · exact Or.inr h'
        refine ⟨sameStructure_trans ss2 ssf, hcf, hnkf, htc_comp, ?_⟩
        intro d hd
        rcases List.mem_cons.mp hd with rfl | hd'
        · obtain ⟨t2, ht2, hst2, htk2⟩ := hroot2
          refine ⟨cancelled_token_persists ssf htcf ht2 hst2 htk2, ?_⟩
          intro c htdc
          obtain ⟨tc, htc', hstc⟩ := htd2 c htdc
          exact cancelled_persists ssf htcf htc' hstc
        · obtain ⟨hroot', htd'⟩ := hdf d hd'
          exact ⟨hroot', fun c htdc => htd' c (ss2.transDep htdc)⟩

theorem cancelTask_ok_succ (fuel : Nat) (hg : CancelGoOK fuel) :
    CancelTaskOK (fuel + 1) := by
  intro m id now m' hc hnk h
  unfold TaskManager.cancel_task at h
  cases hmc : m.mark_cancelled id now with
  | none =>
    rw [hmc] at h
    simp at h
  | some m1 =>
    rw [hmc] at h
    obtain ⟨ss1, hc1, hnk1, htc1, hroot1⟩ :=
      mark_cancelled_spec m id now m1 hc hnk hmc
    obtain ⟨ssf, hcf, hnkf, htcf, hdf⟩ :=
      hg (m1.get_dependent_tasks id) m1 now m' hc1 hnk1 h
    have htc_comp : ∀ k t, m'.tasks.lookup k = some t →
        m.tasks.lookup k = some t ∨
          (t.state = .cancelled ∧ t.token_cancelled = true) := by
      intro k t ht'
      rcases htcf k t ht' with h' | h'
      · exact htc1 k t h'
      · exact Or.inr h'
    obtain ⟨t1, ht1, hst1, htk1⟩ := hroot1
    refine ⟨sameStructure_trans ss1 ssf, hcf, hnkf, htc_comp,
      cancelled_token_persists ssf htcf ht1 hst1 htk1, ?_⟩
    intro c htdc
    cases htdc with
    | single _ _ hd =>
      have hd1 : DirectDep m1 id c := ss1.directDep hd
      have hmem : c ∈ m1.get_dependent_tasks id :=
        (mem_get_dependent_tasks_iff m1 hc1 hnk1 id c).mpr hd1
      obtain ⟨⟨t', ht', hst', _⟩, _⟩ := hdf c hmem
      exact ⟨t', ht', hst'⟩
    | head _ d _ hd htdc' =>
      have hd1 : DirectDep m1 id d := ss1.directDep hd
      have hmem : d ∈ m1.get_dependent_tasks id :=
        (mem_get_dependent_tasks_iff m1 hc1 hnk1 id d).mpr hd1
      obtain ⟨_, htd'⟩ := hdf d hmem
      exact htd' c (ss1.transDep htdc')

theorem cancelTask_ok : ∀ fuel, CancelTaskOK fuel := by
  intro fuel
  induction fuel with
  | zero =>
    intro m id now m' _ _ h
    exact Option.noConfusion h
  | succ n ih => exact cancelTask_ok_succ n (cancelGo_ok_of_task n ih)

/-- **C6.** Cascading cancellation: for every registered task `t` of a
consistently keyed store, whenever `cancel_task t` returns, `t` has been
marked `CANCELLED` with its cancellation token cancelled, and every task
transitively dependent on `t` is in the `CANCELLED` state.  The dependents
followed at each level are exactly those produced by the flat scan
`get_dependent_tasks` over all tasks of the manager (no `DependencyGraph`
is consulted). -/
theorem c6_cascading_cancellation (m : TaskManager) (t : String) (now : Nat)
    (task : TaskContext) (hcons : ConsistentTM m) (hnk : NodupKeysTM m)
    (hreg : m.tasks.lookup t = some task) :
    (∀ fuel m', TaskManager.cancel_task fuel m t now = some (Except.ok m') →
      (∃ t', m'.tasks.lookup t = some t' ∧ t'.state = TaskState.cancelled ∧
        t'.token_cancelled = true) ∧
      (∀ d, TransDep m t d → ∃ t', m'.tasks.lookup d = some t' ∧
        t'.state = TaskState.cancelled)) ∧
    (∀ d, d ∈ m.get_dependent_tasks t ↔ DirectDep m t d) := by
  have hkey : IsKey m t := ⟨task, hreg⟩
  refine ⟨?_, fun d => mem_get_dependent_tasks_iff m hcons hnk t d⟩
  intro fuel m' hok
  obtain ⟨_, _, _, _, hroot, htd⟩ :=
    cancelTask_ok fuel m t now m' hcons hnk hok
  exact ⟨hroot, htd⟩

/-- A three-task chain: `t2` depends on `t1` and `t3` depends on `t2`. -/
def cascadeMgr : TaskManager :=
  ⟨[("t1", ⟨"ag", "t1", .running, 0, none, none, none, [], [],
      false, 0, 3, 1, none⟩),
    ("t2", ⟨"ag", "t2", .running, 0, none, none, none, ["t1"], [],
      false, 0, 3, 1, none⟩),
    ("t3", ⟨"ag", "t3", .running, 0, none, none, none, ["t2"], [],
      false, 0, 3, 1, none⟩)]⟩

/-- Witness for C6 at the three-task chain. -/
theorem c6_witness :
    (∀ fuel m',
      TaskManager.cancel_task fuel cascadeMgr "t1" 9 = some (Except.ok m') →
      (∃ t', m'.tasks.lookup "t1" = some t' ∧
        t'.state = TaskState.cancelled ∧ t'.token_cancelled = true) ∧
      (∀ d, TransDep cascadeMgr "t1" d →
        ∃ t', m'.tasks.lookup d = some t' ∧
          t'.state = TaskState.cancelled)) ∧
    (∀ d, d ∈ cascadeMgr.get_dependent_tasks "t1" ↔
      DirectDep cascadeMgr "t1" d) :=
  c6_cascading_cancellation cascadeMgr "t1" 9
    ⟨"ag", "t1", .running, 0, none, none, none, [], [], false, 0, 3, 1, none⟩
    (by unfold ConsistentTM; decide) (by unfold NodupKeysTM; decide) (by rfl)

/-! ## C10: termination of the cascade -/

/-- When the root is registered, the cascade never raises (the only
`ValueError` is an unknown id, and every id it recurses into is a key). -/
def CancelNoErr (fuel : Nat) : Prop :=
  ∀ m id now, ConsistentTM m → NodupKeysTM m → IsKey m id →
    ∀ e, TaskManager.cancel_task fuel m id now ≠ some (Except.error e)

/-- The same guarantee for the dependents loop. -/
def CancelGoNoErr (fuel : Nat) : Prop :=
  ∀ l m now, ConsistentTM m → NodupKeysTM m → (∀ d ∈ l, IsKey m d) →
    ∀ e, cancelGo (fun mm d => TaskManager.cancel_task fuel mm d now) l m
      ≠ some (Except.error e)

theorem cancelGo_noerr_of (fuel : Nat) (htne : CancelNoErr fuel)
    (htok : CancelTaskOK fuel) : CancelGoNoErr fuel := by
  intro l
  induction l with
  | nil =>
    intro m now _ _ _ e h
    unfold cancelGo at h
    simp at h
  | cons a as ih =>
    intro m now hc hnk hkeys e h
    unfold cancelGo at h
    cases hca : TaskManager.cancel_task fuel m a now with
    | none =>
      rw [hca] at h
      exact Option.noConfusion h
    | some r =>
      cases r with
      | error e' =>
        exact absurd hca
          (htne m a now hc hnk (hkeys a (List.mem_cons_self _ _)) e')
      | ok m2 =>
        rw [hca] at h
        obtain ⟨ss2, hc2, hnk2, _, _, _⟩ := htok m a now m2 hc hnk hca
        exact ih m2 now hc2 hnk2
          (fun d hd => ss2.isKey (hkeys d (List.mem_cons_of_mem _ hd))) e h

theorem cancelTask_noerr_succ (fuel : Nat) (hg : CancelGoNoErr fuel) :
    CancelNoErr (fuel + 1) := by
  intro m id now hc hnk hkey e h
  unfold TaskManager.cancel_task at h
  cases hmc : m.mark_cancelled id now with
  | none =>
    obtain ⟨tk, htk⟩ := hkey
    unfold TaskManager.mark_cancelled at hmc
    rw [htk] at hmc
    exact Option.noConfusion hmc
  | some m1 =>
    rw [hmc] at h
    obtain ⟨ss1, hc1, hnk1, _, _⟩ := mark_cancelled_spec m id now m1 hc hnk hmc
    refine absurd h (hg _ m1 now hc1 hnk1 ?_ e)
    intro d hd
    obtain ⟨tk, hl, _⟩ := (mem_get_dependent_tasks_iff m1 hc1 hnk1 id d).mp hd
    exact ⟨tk, hl⟩

theorem cancelTask_noerr : ∀ fuel, CancelNoErr fuel := by
  intro fuel
  induction fuel with
  | zero =>
    intro m id now _ _ _ e h
    exact Option.noConfusion h
  | succ n ih =>
    exact cancelTask_noerr_succ n (cancelGo_noerr_of n ih (cancelTask_ok n))

/-- A chain of successive direct dependents starting at `a` — exactly the
paths the cascade recursion follows. -/
inductive DepChain (m : TaskManager) : String → List String → Prop
  | nil (a : String) : DepChain m a []
  | cons (a b : String) (l : List String) :
      DirectDep m a b → DepChain m b l → DepChain m a (b :: l)

/-- Every dependent chain from `t` has length at most `n`. -/
def PathBnd (m : TaskManager) (t : String) (n : Nat) : Prop :=
  ∀ l, DepChain m t l → l.length ≤ n

theorem SameStructure.depChain {m m' : TaskManager} (h : SameStructure m m')
    {a : String} {l : List String} (hc : DepChain m a l) : DepChain m' a l := by
  induction hc with
  | nil a => exact DepChain.nil a
  | cons a b l hd _ ih => exact DepChain.cons a b l (h.directDep hd) ih

theorem SameStructure.pathBnd {m m' : TaskManager} (h : SameStructure m m')
    {t : String} {n : Nat} (hb : PathBnd m t n) : PathBnd m' t n :=
  fun l hc => hb l (h.symm.depChain hc)

theorem chain_transDep {m : TaskManager} {t : String} {l : List String}
    (hc : DepChain m t l) : ∀ x ∈ l, TransDep m t x := by
  induction hc with
  | nil a => exact fun x hx => absurd hx (List.not_mem_nil x)
  | cons a b l hd _ ih =>
    intro x hx
    rcases List.mem_cons.mp hx with rfl | hx'
    · exact TransDep.single a x hd
    · exact TransDep.head a b x hd (ih x hx')

theorem chain_isKey {m : TaskManager} {t : String} {l : List String}
    (hc : DepChain m t l) : ∀ x ∈ l, IsKey m x := by
  induction hc with
  | nil a => exact fun x hx => absurd hx (List.not_mem_nil x)
  | cons a b l hd _ ih =>
    intro x hx
    rcases List.mem_cons.mp hx with rfl | hx'
    · obtain ⟨tk, htk, _⟩ := hd
      exact ⟨tk, htk⟩
    · exact ih x hx'

theorem chain_nodup {m : TaskManager} (hacyc : ¬ ∃ x, TransDep m x x) :
    ∀ {t : String} {l : List String}, DepChain m t l → l.Nodup ∧ t ∉ l := by
  intro t l hc
  induction hc with
  | nil a => exact ⟨List.nodup_nil, List.not_mem_nil a⟩
  | cons a b l hd hch ih =>
    obtain ⟨hnd, hbl⟩ := ih
    refine ⟨List.nodup_cons.mpr ⟨hbl, hnd⟩, ?_⟩
    intro hmem
    rcases List.mem_cons.mp hmem with rfl | hal
    · exact hacyc ⟨a, TransDep.single a a hd⟩
    · exact hacyc ⟨a, transDep_trans (TransDep.single a b hd)
        (chain_transDep hch a hal)⟩

/-- On an acyclic store every dependent chain is bounded by the number of
registered tasks. -/
theorem pathBnd_of_acyclic (m : TaskManager)
    (hacyc : ¬ ∃ x, TransDep m x x) (t : String) :
    PathBnd m t (dictKeys m.tasks).length := by
  intro l hc
  have hnd := (chain_nodup hacyc hc).1
  have hsub : l ⊆ dictKeys m.tasks := by
    intro x hx
    obtain ⟨tk, htk⟩ := chain_isKey hc x hx
    rw [mem_dictKeys, ← lookup_isSome_eq_dictMem, htk]
    rfl
  exact (hnd.subperm hsub).length_le

/-- The dependents loop terminates when every listed id has bounded
chains. -/
theorem cancelGo_term (k : Nat)
    (ihterm : ∀ m t now, ConsistentTM m → NodupKeysTM m → IsKey m t →
      PathBnd m t k → TaskManager.cancel_task (k + 1) m t now ≠ none) :
    ∀ l m₀ m now, ConsistentTM m → NodupKeysTM m → SameStructure m₀ m →
      (∀ d ∈ l, IsKey m₀ d ∧ PathBnd m₀ d k) →
      cancelGo (fun mm d => TaskManager.cancel_task (k + 1) mm d now) l m
        ≠ none := by
  intro l
  induction l with
  | nil =>
    intro m₀ m now _ _ _ _ h
    unfold cancelGo at h
    exact Option.noConfusion h
  | cons a as ih =>
    intro m₀ m now hc hnk hss hconds h
    unfold cancelGo at h
    cases hca : TaskManager.cancel_task (k + 1) m a now with
    | none =>
      exact ihterm m a now hc hnk
        (hss.isKey (hconds a (List.mem_cons_self _ _)).1)
        (hss.pathBnd (hconds a (List.mem_cons_self _ _)).2) hca
    | some r =>
      cases r with
      | error e =>
        rw [hca] at h
        exact Option.noConfusion h
      | ok m2 =>
        rw [hca] at h
        obtain ⟨ss2, hc2, hnk2, _, _, _⟩ :=
          cancelTask_ok (k + 1) m a now m2 hc hnk hca
        exact ih m₀ m2 now hc2 hnk2 (sameStructure_trans hss ss2)
          (fun d hd => hconds d (List.mem_cons_of_mem _ hd)) h

/-- The cascade returns within `n + 1` nested calls whenever every
dependent chain from the root has length at most `n`. -/
theorem cancel_term : ∀ n m t now, ConsistentTM m → NodupKeysTM m →
    IsKey m t → PathBnd m t n →
    TaskManager.cancel_task (n + 1) m t now ≠ none := by
  intro n
  induction n with
  | zero =>
    intro m t now hc hnk hkey hbnd h
    unfold TaskManager.cancel_task at h
    cases hmc : m.mark_cancelled t now with
    | none =>
      rw [hmc] at h
      exact Option.noConfusion h
    | some m1 =>
      rw [hmc] at h
      dsimp only at h
      obtain ⟨ss1, hc1, hnk1, _, _⟩ :=
        mark_cancelled_spec m t now m1 hc hnk hmc
      have hD : m1.get_dependent_tasks t = [] := by
        cases hD : m1.get_dependent_tasks t with
        | nil => rfl
        | cons d ds =>
          have hdd : DirectDep m1 t d :=
            (mem_get_dependent_tasks_iff m1 hc1 hnk1 t d).mp
              (hD ▸ List.mem_cons_self d ds)
          have hdd0 : DirectDep m t d := ss1.symm.directDep hdd
          have := hbnd [d] (DepChain.cons t d [] hdd0 (DepChain.nil d))
          simp at this
      rw [hD] at h
      unfold cancelGo at h
      exact Option.noConfusion h
  | succ k ih =>
    intro m t now hc hnk hkey hbnd h
    unfold TaskManager.cancel_task at h
    cases hmc : m.mark_cancelled t now with
    | none =>
      rw [hmc] at h
      exact Option.noConfusion h
    | some m1 =>
      rw [hmc] at h
      obtain ⟨ss1, hc1, hnk1, _, _⟩ :=
        mark_cancelled_spec m t now m1 hc hnk hmc
      refine cancelGo_term k ih (m1.get_dependent_tasks t) m1 m1 now hc1 hnk1
        (SameStructure.refl m1) ?_ h
      intro d hd
      have hdd1 : DirectDep m1 t d :=
        (mem_get_dependent_tasks_iff m1 hc1 hnk1 t d).mp hd
      constructor
      · obtain ⟨tk, htk, _⟩ := hdd1
        exact ⟨tk, htk⟩
      · intro l hcl
        have hch : DepChain m1 t (d :: l) := DepChain.cons t d l hdd1 hcl
        have := (ss1.pathBnd hbnd) (d :: l) hch
        simpa using this

/-- A cycle in the dependency relation reachable from `t`. -/
def CycReach (m : TaskManager) (t : String) : Prop :=
  ∃ c, TransDep m c c ∧ (t = c ∨ TransDep m t c)

theorem SameStructure.cycReach {m m' : TaskManager} (h : SameStructure m m')
    {t : String} (hcr : CycReach m t) : CycReach m' t := by
  obtain ⟨c, hcc, hrest⟩ := hcr
  exact ⟨c, h.transDep hcc, hrest.imp id h.transDep⟩

/-- From a state with a reachable cycle, some direct dependent also has a
reachable cycle. -/
theorem cycReach_step (m : TaskManager) (t : String) (hcr : CycReach m t) :
    ∃ d, DirectDep m t d ∧ CycReach m d := by
  obtain ⟨c, hcc, hrest⟩ := hcr
  rcases hrest with rfl | htc
  · cases hcc with
    | single _ _ hd => exact ⟨t, hd, t, TransDep.single t t hd, Or.inl rfl⟩
    | head _ b _ hd htd =>
      exact ⟨b, hd, t, TransDep.head t b t hd htd, Or.inr htd⟩
  · cases htc with
    | single _ _ hd => exact ⟨c, hd, c, hcc, Or.inl rfl⟩
    | head _ b _ hd htd => exact ⟨b, hd, c, hcc, Or.inr htd⟩

/-- If some listed id has a reachable cycle (and every listed id is
registered), the dependents loop runs out of any fuel. -/
theorem cancelGo_none_of_cyc (k : Nat)
    (ihdiv : ∀ m x now, ConsistentTM m → NodupKeysTM m → IsKey m x →
      CycReach m x → TaskManager.cancel_task k m x now = none) :
    ∀ l m₀ m now d, ConsistentTM m → NodupKeysTM m → SameStructure m₀ m →
      (∀ x ∈ l, IsKey m₀ x) → d ∈ l → CycReach m₀ d →
      cancelGo (fun mm x => TaskManager.cancel_task k mm x now) l m
        = none := by
  intro l
  induction l with
  | nil =>
    intro m₀ m now d _ _ _ _ hd _
    exact absurd hd (List.not_mem_nil d)
  | cons a as ih =>
    intro m₀ m now d hc hnk hss hkeys hd hcr
    unfold cancelGo
    rcases List.mem_cons.mp hd with rfl | hd'
    · have hnone := ihdiv m d now hc hnk
        (hss.isKey (hkeys d (List.mem_cons_self _ _))) (hss.cycReach hcr)
      rw [hnone]
    · cases hca : TaskManager.cancel_task k m a now with
      | none => rfl
      | some r =>
        cases r with
        | error e =>
          exact absurd hca (cancelTask_noerr k m a now hc hnk
            (hss.isKey (hkeys a (List.mem_cons_self _ _))) e)
        | ok m2 =>
          obtain ⟨ss2, hc2, hnk2, _, _, _⟩ :=
            cancelTask_ok k m a now m2 hc hnk hca
          exact ih m₀ m2 now d hc2 hnk2 (sameStructure_trans hss ss2)
            (fun x hx => hkeys x (List.mem_cons_of_mem _ hx)) hd' hcr

/-- With a cycle reachable from the (registered) root, the cascade never
returns, whatever the fuel. -/
theorem cancel_diverges : ∀ fuel m t now, ConsistentTM m → NodupKeysTM m →
    IsKey m t → CycReach m t →
    TaskManager.cancel_task fuel m t now = none := by
  intro fuel
  induction fuel with
  | zero =>
    intro m t now _ _ _ _
    rfl
  | succ k ih =>
    intro m t now hc hnk hkey hcr
    unfold TaskManager.cancel_task
    cases hmc : m.mark_cancelled t now with
    | none =>
      obtain ⟨tk, htk⟩ := hkey
      unfold TaskManager.mark_cancelled at hmc
      rw [htk] at hmc
      exact Option.noConfusion hmc
    | some m1 =>
      obtain ⟨ss1, hc1, hnk1, _, _⟩ :=
        mark_cancelled_spec m t now m1 hc hnk hmc
      obtain ⟨d, hdd, hdcr⟩ := cycReach_step m t hcr
      have hdd1 : DirectDep m1 t d := ss1.directDep hdd
      have hdmem : d ∈ m1.get_dependent_tasks t :=
        (mem_get_dependent_tasks_iff m1 hc1 hnk1 t d).mpr hdd1
      refine cancelGo_none_of_cyc k ih (m1.get_dependent_tasks t) m1 m1 now d
        hc1 hnk1 (SameStructure.refl m1) ?_ hdmem (ss1.cycReach hdcr)
      intro x hx
      obtain ⟨tk, htk, _⟩ := (mem_get_dependent_tasks_iff m1 hc1 hnk1 t x).mp hx
      exact ⟨tk, htk⟩

/-- **C10.** Termination of the cancellation cascade: for every
consistently keyed task store and registered task `t`, if the dependency
relation is acyclic the cascade terminates (some recursion budget
suffices); and because the cascade re-cancels tasks without a visited set,
whenever a dependency cycle is reachable from `t` the recursion exceeds
every budget — the source recursion never returns. -/
theorem c10_cascade_termination :
    (∀ (m : TaskManager) (t : String) (now : Nat) (task : TaskContext),
      ConsistentTM m → NodupKeysTM m → m.tasks.lookup t = some task →
      (¬ ∃ x, TransDep m x x) →
      ∃ fuel, TaskManager.cancel_task fuel m t now ≠ none) ∧
    (∀ (m : TaskManager) (t : String) (now : Nat) (task : TaskContext),
      ConsistentTM m → NodupKeysTM m → m.tasks.lookup t = some task →
      (∃ c, TransDep m c c ∧ (t = c ∨ TransDep m t c)) →
      ∀ fuel, TaskManager.cancel_task fuel m t now = none) := by
  constructor
  · intro m t now task hc hnk hreg hacyc
    exact ⟨(dictKeys m.tasks).length + 1,
      cancel_term (dictKeys m.tasks).length m t now hc hnk ⟨task, hreg⟩
        (pathBnd_of_acyclic m hacyc t)⟩
  · intro m t now task hc hnk hreg hcyc fuel
    exact cancel_diverges fuel m t now hc hnk ⟨task, hreg⟩ hcyc

/-- A store whose tasks declare no dependencies at all has no transitive
dependency, hence no cycle. -/
theorem no_transDep_of_no_deps (m : TaskManager)
    (h : ∀ p ∈ m.tasks, p.2.dependencies = []) : ¬ ∃ x, TransDep m x x := by
  rintro ⟨x, hx⟩
  have hnd : ∀ a b, ¬ DirectDep m a b := by
    rintro a b ⟨tk, hl, hmem⟩
    have hdeps := h _ (mem_of_lookup_eq_some hl)
    rw [hdeps] at hmem
    cases hmem
  cases hx with
  | single _ _ hd => exact hnd _ _ hd
  | head _ _ _ hd _ => exact hnd _ _ hd

/-- A one-task store with no dependencies (acyclic). -/
def nodepMgr : TaskManager :=
  ⟨[("t1", ⟨"ag", "t1", .running, 0, none, none, none, [], [],
    false, 0, 3, 1, none⟩)]⟩

/-- Two mutually dependent tasks — the cycle of the claim. -/
def cyclicMgr : TaskManager :=
  ⟨[("t1", ⟨"ag", "t1", .running, 0, none, none, none, ["t2"], [],
      false, 0, 3, 1, none⟩),
    ("t2", ⟨"ag", "t2", .running, 0, none, none, none, ["t1"], [],
      false, 0, 3, 1, none⟩)]⟩

/-- Witness for C10: on the dependency-free store the cascade terminates;
on the two-task mutual cycle it exhausts every recursion budget. -/
theorem c10_witness :
    (∃ fuel, TaskManager.cancel_task fuel nodepMgr "t1" 3 ≠ none) ∧
    (∀ fuel, TaskManager.cancel_task fuel cyclicMgr "t1" 3 = none) := by
  constructor
  · exact c10_cascade_termination.1 nodepMgr "t1" 3
      ⟨"ag", "t1", .running, 0, none, none, none, [], [],
        false, 0, 3, 1, none⟩
      (by unfold ConsistentTM; decide) (by unfold NodupKeysTM; decide)
      (by rfl)
      (no_transDep_of_no_deps nodepMgr (by
        intro p hp
        rw [show nodepMgr.tasks = [("t1", ⟨"ag", "t1", .running, 0, none,
          none, none, [], [], false, 0, 3, 1, none⟩)] from rfl,
          List.mem_singleton] at hp
        subst hp
        rfl))
  · exact c10_cascade_termination.2 cyclicMgr "t1" 3
      ⟨"ag", "t1", .running, 0, none, none, none, ["t2"], [],
        false, 0, 3, 1, none⟩
      (by unfold ConsistentTM; decide) (by unfold NodupKeysTM; decide)
      (by rfl)
      ⟨"t1",
        TransDep.head "t1" "t2" "t1"
          ⟨⟨"ag", "t2", .running, 0, none, none, none, ["t1"], [],
            false, 0, 3, 1, none⟩, by rfl, by decide⟩
          (TransDep.single "t2" "t1"
            ⟨⟨"ag", "t1", .running, 0, none, none, none, ["t2"], [],
              false, 0, 3, 1, none⟩, by rfl, by decide⟩),
        Or.inl rfl⟩
